import Mathlib

/-!
Verification of the `octarine` color library (`src/lib.rs`).

The Rust code is shallowly embedded as follows:
* `u8` channel values become `Fin 256`;
* `u32` hex values become `ℕ` (all operations mask well below 2^32);
* `f32` arithmetic becomes exact arithmetic over `ℚ`; `f32::EPSILON`
  becomes `1 / 2^23`;
* Rust's saturating float-to-`u8` cast `as u8` (truncate toward zero,
  clamp to `[0, 255]`) becomes `u8cast`;
* panics become `Except.error` carrying the panic message;
* the iterators `ColorRange` and `ColorWheel` become explicit state
  passing; the random shift drawn by `ColorWheel` becomes a parameter.
-/

namespace Octarine

/-- `f32::EPSILON` (the machine epsilon of a 32-bit float), as a rational. -/
def eps : ℚ := 1 / 2 ^ 23

/-- `Color(u8, u8, u8)` from `src/lib.rs`. -/
structure Color where
  red : Fin 256
  green : Fin 256
  blue : Fin 256
  deriving DecidableEq, Repr

/-- Rust `as u8` applied to a (finite) float value: truncate toward zero and
saturate into `[0, 255]`.  For `q < 0` the floor is negative so `Int.toNat`
yields `0`, matching the saturating cast. -/
def u8cast (q : ℚ) : Fin 256 :=
  ⟨min ⌊q⌋.toNat 255, by omega⟩

/-- The range test of the macro `test_color_value_range!`:
`x + f32::EPSILON < 0.0 || x - f32::EPSILON > 1.0`. -/
def out_of_range (x : ℚ) : Bool :=
  decide (x + eps < 0) || decide (x - eps > 1)

/-- `Color::new`. -/
def Color.new (r g b : Fin 256) : Color := ⟨r, g, b⟩

/-- `Color::from_rgb_float`: range-checks each component (building the panic
message exactly as `test_color_value_range!` does), then quantizes via
`(x * 255.0 + 0.5) as u8`. -/
def from_rgb_float (r g b : ℚ) : Except String Color :=
  if out_of_range r || out_of_range g || out_of_range b then
    .error ("Color parameter outside of expected range:"
      ++ (if out_of_range r then " Red" else "")
      ++ (if out_of_range g then " Green" else "")
      ++ (if out_of_range b then " Blue" else ""))
  else
    .ok ⟨u8cast (r * 255 + 1/2), u8cast (g * 255 + 1/2), u8cast (b * 255 + 1/2)⟩

/-- `Color::from_hex`: `r = ((rgb & 0xFFFFFF) >> 16) as u8`,
`g = ((rgb & 0xFFFF) >> 8) as u8`, `b = (rgb & 0xFF) as u8`. -/
def from_hex (rgb : ℕ) : Color :=
  ⟨⟨((rgb &&& 0xFFFFFF) >>> 16) % 256, Nat.mod_lt _ (by norm_num)⟩,
   ⟨((rgb &&& 0xFFFF) >>> 8) % 256, Nat.mod_lt _ (by norm_num)⟩,
   ⟨(rgb &&& 0xFF) % 256, Nat.mod_lt _ (by norm_num)⟩⟩

/-- `Color::to_hex`: `let b = blue << 16; let g = green << 8; let r = red;
r | g | b`. -/
def to_hex (c : Color) : ℕ :=
  let b := c.blue.val <<< 16
  let g := c.green.val <<< 8
  let r := c.red.val
  r ||| g ||| b

/-- The first `while` loop of `hue_to_rgb`: `while v_h < 0.0 { v_h += 1.0 }`. -/
def hue_wrap_up (q : ℚ) : ℚ :=
  if h : q < 0 then hue_wrap_up (q + 1) else q
  termination_by (⌈-q⌉).toNat
  decreasing_by
    have h1 : (0 : ℚ) < -q := by linarith
    have h2 : ⌈-(q + 1)⌉ = ⌈-q⌉ - 1 := by
      rw [show -(q + 1) = -q - 1 by ring, Int.ceil_sub_one]
    have h3 : 0 < ⌈-q⌉ := Int.ceil_pos.mpr h1
    omega

/-- The second `while` loop of `hue_to_rgb`: `while v_h > 1.0 { v_h -= 1.0 }`. -/
def hue_wrap_down (q : ℚ) : ℚ :=
  if h : q > 1 then hue_wrap_down (q - 1) else q
  termination_by (⌈q⌉).toNat
  decreasing_by
    have h2 : ⌈q - 1⌉ = ⌈q⌉ - 1 := Int.ceil_sub_one q
    have h3 : 0 < ⌈q⌉ := Int.ceil_pos.mpr (by linarith)
    omega

/-- `hue_to_rgb(v1, v2, v_h)` from `src/lib.rs`: wrap the hue into `[0, 1]`
by the two `while` loops, then the four-band piecewise rule. -/
def hue_to_rgb (v1 v2 vh : ℚ) : ℚ :=
  let w := hue_wrap_down (hue_wrap_up vh)
  if 6 * w < 1 then v1 + (v2 - v1) * 6 * w
  else if 2 * w < 1 then v2
  else if 3 * w < 2 then v1 + (v2 - v1) * (2/3 - w) * 6
  else v1

/-- `Color::from_hsl`. -/
def from_hsl (h s l : ℚ) : Except String Color :=
  if out_of_range s || out_of_range l then
    .error ("Color parameter outside of expected range:"
      ++ (if out_of_range s then " Saturation" else "")
      ++ (if out_of_range l then " Lightness/Value" else ""))
  else if s = 0 then from_rgb_float l l l
  else
    let v2 := if l < 1/2 then l * (1 + s) else (l + s) - s * l
    let v1 := 2 * l - v2
    from_rgb_float (hue_to_rgb v1 v2 (h + 1/3)) (hue_to_rgb v1 v2 h)
      (hue_to_rgb v1 v2 (h - 1/3))

/-- `Color::from_hsv`. -/
def from_hsv (h s v : ℚ) : Except String Color :=
  if out_of_range s || out_of_range v then
    .error ("Color parameter outside of expected range:"
      ++ (if out_of_range s then " Saturation" else "")
      ++ (if out_of_range v then " Lightness/Value" else ""))
  else if s = 0 then from_rgb_float v v v
  else
    let vh0 := h * 6
    let vh := if vh0 = 6 then 0 else vh0
    let vi : ℚ := (⌊vh⌋ : ℤ)
    let v1 := v * (1 - s)
    let v2 := v * (1 - s * (vh - vi))
    let v3 := v * (1 - s * (1 - (vh - vi)))
    let rgb :=
      if vi = 0 then (v, v3, v1)
      else if vi = 1 then (v2, v, v1)
      else if vi = 2 then (v1, v, v3)
      else if vi = 3 then (v1, v2, v)
      else if vi = 4 then (v3, v1, v)
      else (v, v1, v2)
    from_rgb_float rgb.1 rgb.2.1 rgb.2.2

/-- `Color::to_hsl`.  The `u8` min/max are taken on the integer channels and
divided by `255.0`, exactly as the source does. -/
def to_hsl (c : Color) : ℚ × ℚ × ℚ :=
  let vmin : ℚ := (min (min c.red.val c.green.val) c.blue.val : ℕ) / 255
  let vmax : ℚ := (max (max c.red.val c.green.val) c.blue.val : ℕ) / 255
  let diff := vmax - vmin
  let vsum := vmin + vmax
  let l := vsum / 2
  if diff < eps then (0, 0, l)
  else
    let s := if l < 1/2 then diff / vsum else diff / (2 - vsum)
    let r := (c.red.val : ℚ) / 255
    let g := (c.green.val : ℚ) / 255
    let b := (c.blue.val : ℚ) / 255
    let dr := ((vmax - r) / 6 + diff / 2) / diff
    let dg := ((vmax - g) / 6 + diff / 2) / diff
    let db := ((vmax - b) / 6 + diff / 2) / diff
    let h0 := if r = vmax then db - dg
      else if g = vmax then 1/3 + dr - db
      else 2/3 + dg - dr
    let h1 := if h0 < 0 then h0 + 1 else h0
    let h2 := if h1 > 1 then h1 - 1 else h1
    (h2, s, l)

/-- Saturating `u8` addition (`u8::saturating_add`). -/
def u8sadd (a b : Fin 256) : Fin 256 :=
  ⟨min (a.val + b.val) 255, by omega⟩

/-- Saturating `u8` subtraction (`u8::saturating_sub`); `ℕ` subtraction is
already truncated at zero. -/
def u8ssub (a b : Fin 256) : Fin 256 :=
  ⟨a.val - b.val, Nat.lt_of_le_of_lt (Nat.sub_le _ _) a.isLt⟩

/-- One channel of `Mul for Color`: `(a as usize * b as usize / 255) as u8`.
The `usize` product is at most `255 * 255`, so the quotient is below 256 and
the final cast truncates nothing. -/
def u8mul (a b : Fin 256) : Fin 256 :=
  ⟨a.val * b.val / 255 % 256, Nat.mod_lt _ (by norm_num)⟩

/-- `Add for Color` (channel-wise `saturating_add`). -/
def Color.add (c rhs : Color) : Color :=
  ⟨u8sadd c.red rhs.red, u8sadd c.green rhs.green, u8sadd c.blue rhs.blue⟩

/-- `Sub for Color` (channel-wise `saturating_sub`). -/
def Color.sub (c rhs : Color) : Color :=
  ⟨u8ssub c.red rhs.red, u8ssub c.green rhs.green, u8ssub c.blue rhs.blue⟩

/-- `Mul for Color` (channel-wise `a * b / 255` in `usize`). -/
def Color.mul (c rhs : Color) : Color :=
  ⟨u8mul c.red rhs.red, u8mul c.green rhs.green, u8mul c.blue rhs.blue⟩

/-- `ColorRange` iterator state. -/
structure ColorRange where
  total_steps : ℕ
  current_step : ℕ
  step : ℚ × ℚ × ℚ
  start_color_hsl : ℚ × ℚ × ℚ
  deriving Repr

/-- `ColorRange::new`.  `steps.checked_sub(1).expect(..)` panics exactly when
`steps == 0`, modelled by `none`.  (When `nb == 0` the Rust code divides by
zero producing `f32` NaNs which are then discarded by the `nb > 0` test; here
the `ℚ` division by zero yields `0`, discarded by the same test.) -/
def ColorRange.new (start_color end_color : Color) (steps : ℕ) :
    Option ColorRange :=
  if steps = 0 then none
  else
    let nb := steps - 1
    let sc := to_hsl start_color
    let ec := to_hsl end_color
    let s0 := (ec.1 - sc.1) / (nb : ℚ)
    let s1 := (ec.2.1 - sc.2.1) / (nb : ℚ)
    let s2 := (ec.2.2 - sc.2.2) / (nb : ℚ)
    let st := if nb > 0 then (s0, s1, s2) else ((0 : ℚ), (0 : ℚ), (0 : ℚ))
    some ⟨steps, 0, st, sc⟩

/-- `Iterator::next for ColorRange`.  Outer `none` models a panic escaping
from `from_hsl`; `some none` models the iterator returning `None` (the state
is unchanged in that case); `some (some (c, cr'))` yields `c` with the
updated state `cr'`. -/
def ColorRange.next (cr : ColorRange) : Option (Option (Color × ColorRange)) :=
  if cr.current_step = cr.total_steps then some none
  else
    let m0 := cr.step.1 * (cr.current_step : ℚ)
    let m1 := cr.step.2.1 * (cr.current_step : ℚ)
    let m2 := cr.step.2.2 * (cr.current_step : ℚ)
    let v0 := cr.start_color_hsl.1 + m0
    let v1 := cr.start_color_hsl.2.1 + m1
    let v2 := cr.start_color_hsl.2.2 + m2
    match from_hsl v0 v1 v2 with
    | .error _ => none
    | .ok c => some (some (c, { cr with current_step := cr.current_step + 1 }))

/-- Pull `n` values out of a `ColorRange`: the list records, per pull,
`some c` when a color was yielded and `none` when the iterator was exhausted;
the overall result is `none` when some pull panicked. -/
def takeColors : ColorRange → ℕ → Option (List (Option Color))
  | _, 0 => some []
  | cr, n + 1 =>
    match cr.next with
    | none => none
    | some none => (takeColors cr n).map (fun l => none :: l)
    | some (some (c, cr')) => (takeColors cr' n).map (fun l => some c :: l)

/-- `ColorWheel` state (the `SmallRng` is externalized: the shift it draws is
passed to `ColorWheel.next` as an argument). -/
structure ColorWheel where
  phase : ℚ

/-- `ColorWheel::with_starting_point`. -/
def ColorWheel.with_starting_point (start : ℚ) : ColorWheel :=
  ⟨if start ≥ 1 then start - 1 else start⟩

/-- `Iterator::next for ColorWheel`, with the random shift
(`rng.gen_range(0.1..0.2)`) as an explicit parameter. -/
def ColorWheel.next (w : ColorWheel) (shift : ℚ) :
    ColorWheel × Except String Color :=
  let p := w.phase + shift
  let p2 := if p ≥ 1 then p - 1 else p
  (⟨p2⟩, from_hsv p2 1 (4/5))

/-! ### Basic helpers -/

theorem Color.ext' {a b : Color} (hr : a.red = b.red) (hg : a.green = b.green)
    (hb : a.blue = b.blue) : a = b := by
  cases a; cases b; simp_all

/-- `to_hex` as plain arithmetic: the two `or`s combine disjoint bit ranges,
so they are additions. -/
theorem to_hex_eq_add (c : Color) :
    to_hex c = c.red.val + 2 ^ 8 * c.green.val + 2 ^ 16 * c.blue.val := by
  have hr := c.red.isLt
  have hg := c.green.isLt
  show c.red.val ||| c.green.val <<< 8 ||| c.blue.val <<< 16 = _
  rw [Nat.shiftLeft_eq, Nat.shiftLeft_eq, mul_comm c.green.val (2 ^ 8),
    mul_comm c.blue.val (2 ^ 16), Nat.lor_comm c.red.val (2 ^ 8 * c.green.val),
    ← Nat.mul_add_lt_is_or (show c.red.val < 2 ^ 8 by omega) c.green.val,
    Nat.lor_comm _ (2 ^ 16 * c.blue.val),
    ← Nat.mul_add_lt_is_or
      (show 2 ^ 8 * c.green.val + c.red.val < 2 ^ 16 by omega) c.blue.val]
  ring

/-- The three channels extracted by `from_hex`, as division/remainder. -/
theorem from_hex_channels (n : ℕ) :
    (from_hex n).red.val = n / 2 ^ 16 % 2 ^ 8 ∧
    (from_hex n).green.val = n / 2 ^ 8 % 2 ^ 8 ∧
    (from_hex n).blue.val = n % 2 ^ 8 := by
  refine ⟨?_, ?_, ?_⟩
  · show ((n &&& 0xFFFFFF) >>> 16) % 256 = _
    rw [show (0xFFFFFF : ℕ) = 2 ^ 24 - 1 by norm_num,
      Nat.and_pow_two_sub_one_eq_mod, Nat.shiftRight_eq_div_pow]
    omega
  · show ((n &&& 0xFFFF) >>> 8) % 256 = _
    rw [show (0xFFFF : ℕ) = 2 ^ 16 - 1 by norm_num,
      Nat.and_pow_two_sub_one_eq_mod, Nat.shiftRight_eq_div_pow]
    omega
  · show (n &&& 0xFF) % 256 = _
    rw [show (0xFF : ℕ) = 2 ^ 8 - 1 by norm_num,
      Nat.and_pow_two_sub_one_eq_mod]
    omega

/-! ### The hue wrapping loops -/

theorem hue_wrap_up_of_nonneg (q : ℚ) (h : 0 ≤ q) : hue_wrap_up q = q := by
  rw [hue_wrap_up]
  exact dif_neg (not_lt.mpr h)

theorem hue_wrap_up_step (q : ℚ) (h : q < 0) :
    hue_wrap_up q = hue_wrap_up (q + 1) := by
  conv_lhs => rw [hue_wrap_up]
  exact dif_pos h

theorem hue_wrap_down_of_le_one (q : ℚ) (h : q ≤ 1) : hue_wrap_down q = q := by
  rw [hue_wrap_down]
  exact dif_neg (not_lt.mpr h)

theorem hue_wrap_down_step (q : ℚ) (h : 1 < q) :
    hue_wrap_down q = hue_wrap_down (q - 1) := by
  conv_lhs => rw [hue_wrap_down]
  exact dif_pos h

theorem hue_wrap_up_bounds_aux :
    ∀ (n : ℕ) (q : ℚ), (⌈-q⌉).toNat ≤ n → q < 0 →
      0 ≤ hue_wrap_up q ∧ hue_wrap_up q < 1 := by
  intro n
  induction n with
  | zero =>
    intro q hn hq
    have : 0 < ⌈-q⌉ := Int.ceil_pos.mpr (by linarith)
    omega
  | succ n ih =>
    intro q hn hq
    rw [hue_wrap_up_step q hq]
    by_cases h1 : q + 1 < 0
    · refine ih (q + 1) ?_ h1
      have : ⌈-(q + 1)⌉ = ⌈-q⌉ - 1 := by
        rw [show -(q + 1) = -q - 1 by ring, Int.ceil_sub_one]
      omega
    · push_neg at h1
      rw [hue_wrap_up_of_nonneg _ h1]
      constructor
      · linarith
      · linarith

theorem hue_wrap_down_bounds_aux :
    ∀ (n : ℕ) (q : ℚ), (⌈q⌉).toNat ≤ n → 1 < q →
      0 < hue_wrap_down q ∧ hue_wrap_down q ≤ 1 := by
  intro n
  induction n with
  | zero =>
    intro q hn hq
    have : 0 < ⌈q⌉ := Int.ceil_pos.mpr (by linarith)
    omega
  | succ n ih =>
    intro q hn hq
    rw [hue_wrap_down_step q hq]
    by_cases h1 : 1 < q - 1
    · refine ih (q - 1) ?_ h1
      have : ⌈q - 1⌉ = ⌈q⌉ - 1 := Int.ceil_sub_one q
      omega
    · push_neg at h1
      rw [hue_wrap_down_of_le_one _ h1]
      constructor
      · linarith
      · linarith

/-- The composite wrap used by `hue_to_rgb` always lands in `[0, 1]`. -/
theorem hue_wrap_mem (q : ℚ) :
    0 ≤ hue_wrap_down (hue_wrap_up q) ∧ hue_wrap_down (hue_wrap_up q) ≤ 1 := by
  by_cases h : q < 0
  · obtain ⟨h0, h1⟩ := hue_wrap_up_bounds_aux (⌈-q⌉).toNat q le_rfl h
    rw [hue_wrap_down_of_le_one _ (le_of_lt h1)]
    exact ⟨h0, le_of_lt h1⟩
  · push_neg at h
    rw [hue_wrap_up_of_nonneg q h]
    by_cases h2 : 1 < q
    · obtain ⟨h0, h1⟩ := hue_wrap_down_bounds_aux (⌈q⌉).toNat q le_rfl h2
      exact ⟨le_of_lt h0, h1⟩
    · push_neg at h2
      rw [hue_wrap_down_of_le_one _ h2]
      exact ⟨h, h2⟩

/-- On hues already in `[0, 1]` the wrap is the identity and `hue_to_rgb`
is the bare four-band rule. -/
theorem hue_to_rgb_eval (v1 v2 q : ℚ) (h0 : 0 ≤ q) (h1 : q ≤ 1) :
    hue_to_rgb v1 v2 q =
      if 6 * q < 1 then v1 + (v2 - v1) * 6 * q
      else if 2 * q < 1 then v2
      else if 3 * q < 2 then v1 + (v2 - v1) * (2/3 - q) * 6
      else v1 := by
  simp only [hue_to_rgb]
  rw [hue_wrap_up_of_nonneg q h0, hue_wrap_down_of_le_one q h1]

theorem hue_to_rgb_add_one (v1 v2 q : ℚ) (h : q < 0) :
    hue_to_rgb v1 v2 q = hue_to_rgb v1 v2 (q + 1) := by
  simp only [hue_to_rgb]
  rw [hue_wrap_up_step q h]

theorem hue_to_rgb_sub_one (v1 v2 q : ℚ) (h : 1 < q) :
    hue_to_rgb v1 v2 q = hue_to_rgb v1 v2 (q - 1) := by
  simp only [hue_to_rgb]
  rw [hue_wrap_up_of_nonneg q (by linarith), hue_wrap_up_of_nonneg (q - 1) (by linarith),
    hue_wrap_down_step q h]

/-- `hue_to_rgb` stays inside `[0, 1]` when the two reference levels do. -/
theorem hue_to_rgb_bound (v1 v2 q : ℚ) (h10 : 0 ≤ v1) (h11 : v1 ≤ 1)
    (h20 : 0 ≤ v2) (h21 : v2 ≤ 1) :
    0 ≤ hue_to_rgb v1 v2 q ∧ hue_to_rgb v1 v2 q ≤ 1 := by
  obtain ⟨hw0, hw1⟩ := hue_wrap_mem q
  simp only [hue_to_rgb]
  constructor
  · split_ifs with hb1 hb2 hb3
    · nlinarith
    · linarith
    · nlinarith
    · linarith
  · split_ifs with hb1 hb2 hb3
    · nlinarith
    · linarith
    · nlinarith
    · linarith

/-! ### Quantization and `from_rgb_float` -/

theorem out_of_range_false {x : ℚ} (h0 : 0 ≤ x) (h1 : x ≤ 1) :
    out_of_range x = false := by
  simp only [out_of_range, eps, Bool.or_eq_false_iff, decide_eq_false_iff_not,
    not_lt, gt_iff_lt]
  constructor
  · nlinarith
  · nlinarith

/-- Quantizing the exact rational `k + 1/2` (for a channel value `k`)
reproduces `k`. -/
theorem u8cast_add_half (k : ℕ) (hk : k < 256) :
    u8cast ((k : ℚ) + 1/2) = ⟨k, hk⟩ := by
  have hfl : ⌊(k : ℚ) + 1/2⌋ = (k : ℤ) := by
    rw [Int.floor_eq_iff]
    constructor
    · push_cast
      linarith
    · push_cast
      linarith
  apply Fin.ext
  show min (⌊(k : ℚ) + 1/2⌋).toNat 255 = k
  rw [hfl, Int.toNat_natCast]
  omega

/-- `from_rgb_float` on the exact channel rationals of a color returns that
color unchanged. -/
theorem from_rgb_float_exact (c : Color) :
    from_rgb_float ((c.red.val : ℚ) / 255) ((c.green.val : ℚ) / 255)
      ((c.blue.val : ℚ) / 255) = .ok c := by
  have hmem : ∀ k : ℕ, k < 256 → 0 ≤ (k : ℚ) / 255 ∧ (k : ℚ) / 255 ≤ 1 := by
    intro k hk
    constructor
    · positivity
    · rw [div_le_one (by norm_num)]
      exact_mod_cast Nat.le_of_lt_succ hk
  have hr := hmem _ c.red.isLt
  have hg := hmem _ c.green.isLt
  have hb := hmem _ c.blue.isLt
  rw [from_rgb_float, out_of_range_false hr.1 hr.2, out_of_range_false hg.1 hg.2,
    out_of_range_false hb.1 hb.2]
  have harg : ∀ k : ℕ, ((k : ℚ) / 255) * 255 + 1/2 = (k : ℚ) + 1/2 := by
    intro k
    field_simp
  simp only [Bool.or_self, Bool.false_eq_true, if_false, harg]
  rw [u8cast_add_half _ c.red.isLt, u8cast_add_half _ c.green.isLt,
    u8cast_add_half _ c.blue.isLt]

/-- `from_rgb_float` succeeds whenever all three components are in `[0, 1]`. -/
theorem from_rgb_float_ok {r g b : ℚ} (hr0 : 0 ≤ r) (hr1 : r ≤ 1)
    (hg0 : 0 ≤ g) (hg1 : g ≤ 1) (hb0 : 0 ≤ b) (hb1 : b ≤ 1) :
    ∃ c, from_rgb_float r g b = .ok c := by
  rw [from_rgb_float, out_of_range_false hr0 hr1, out_of_range_false hg0 hg1,
    out_of_range_false hb0 hb1]
  exact ⟨_, rfl⟩

/-! ### HSL hue reconstruction, one lemma per channel ordering

Each lemma reconstructs the three channels from the hue `H` computed by
`to_hsl` (given in closed form via the hypothesis `hH`), with `v1` the
minimum channel and `v2` the maximum channel. -/

theorem recon_rmax_bmin (r g b H : ℚ) (hH : H = (g - b) / (6 * (r - b)))
    (hb0 : 0 ≤ b) (hbg : b ≤ g) (hgr : g ≤ r) (hr1 : r ≤ 1) (hlt : b < r) :
    hue_to_rgb b r (H + 1/3) = r ∧ hue_to_rgb b r H = g ∧
    hue_to_rgb b r (H - 1/3) = b := by
  have hd : 0 < r - b := by linarith
  have hH0 : 0 ≤ H := by
    rw [hH]
    exact div_nonneg (by linarith) (by linarith)
  have hH6 : H ≤ 1/6 := by
    rw [hH, div_le_iff (by positivity)]
    linarith
  have hHd : 6 * H * (r - b) = g - b := by
    rw [hH]
    field_simp
    ring
  refine ⟨?_, ?_, ?_⟩
  · rw [hue_to_rgb_eval _ _ _ (by linarith) (by linarith)]
    split_ifs with h1 h2 h3
    · exfalso; linarith
    · rfl
    · have h16 : H = 1/6 := by linarith
      rw [h16]
      ring
    · exfalso; apply h3; linarith
  · rw [hue_to_rgb_eval _ _ _ hH0 (by linarith)]
    split_ifs with h1 h2 h3
    · linear_combination hHd
    · have h16 : H = 1/6 := by linarith
      rw [h16] at hHd
      linarith
    · exfalso; linarith
    · exfalso; linarith
  · rw [hue_to_rgb_add_one _ _ _ (by linarith),
      show H - 1/3 + 1 = H + 2/3 by ring,
      hue_to_rgb_eval _ _ _ (by linarith) (by linarith)]
    split_ifs with h1 h2 h3
    · exfalso; linarith
    · exfalso; linarith
    · exfalso; linarith
    · rfl

theorem recon_rmax_gmin (r g b H : ℚ) (hH : H = (g - b) / (6 * (r - g)) + 1)
    (hg0 : 0 ≤ g) (hgb : g < b) (hbr : b ≤ r) (hr1 : r ≤ 1) :
    hue_to_rgb g r (H + 1/3) = r ∧ hue_to_rgb g r H = g ∧
    hue_to_rgb g r (H - 1/3) = b := by
  have hgr : g < r := lt_of_lt_of_le hgb hbr
  have hd : 0 < r - g := by linarith
  have hH5 : 5/6 ≤ H := by
    have hx : -(1/6) ≤ (g - b) / (6 * (r - g)) := by
      rw [le_div_iff (by positivity)]
      linarith
    rw [hH]
    linarith
  have hH1 : H < 1 := by
    have hx : (g - b) / (6 * (r - g)) < 0 :=
      div_neg_of_neg_of_pos (by linarith) (by positivity)
    rw [hH]
    linarith
  have hHd : 6 * (H - 1) * (r - g) = g - b := by
    rw [hH]
    field_simp
    ring
  refine ⟨?_, ?_, ?_⟩
  · rw [hue_to_rgb_sub_one _ _ _ (by linarith),
      show H + 1/3 - 1 = H - 2/3 by ring,
      hue_to_rgb_eval _ _ _ (by linarith) (by linarith)]
    split_ifs with h1 h2 h3
    · exfalso; linarith
    · rfl
    · exfalso; linarith
    · exfalso; linarith
  · rw [hue_to_rgb_eval _ _ _ (by linarith) (by linarith)]
    split_ifs with h1 h2 h3
    · exfalso; linarith
    · exfalso; linarith
    · exfalso; linarith
    · rfl
  · rw [hue_to_rgb_eval _ _ _ (by linarith) (by linarith)]
    split_ifs with h1 h2 h3
    · exfalso; linarith
    · exfalso; linarith
    · linear_combination (-1 : ℚ) * hHd
    · exfalso; linarith

theorem recon_gmax_rmin (r g b H : ℚ) (hH : H = 1/3 + (b - r) / (6 * (g - r)))
    (hr0 : 0 ≤ r) (hrb : r ≤ b) (hbg : b ≤ g) (hg1 : g ≤ 1) (hrg : r < g) :
    hue_to_rgb r g (H + 1/3) = r ∧ hue_to_rgb r g H = g ∧
    hue_to_rgb r g (H - 1/3) = b := by
  have hd : 0 < g - r := by linarith
  have hx0 : 0 ≤ (b - r) / (6 * (g - r)) :=
    div_nonneg (by linarith) (by linarith)
  have hx6 : (b - r) / (6 * (g - r)) ≤ 1/6 := by
    rw [div_le_iff (by positivity)]
    linarith
  have hH3 : 1/3 ≤ H := by rw [hH]; linarith
  have hH2 : H ≤ 1/2 := by rw [hH]; linarith
  have hHd : 6 * (H - 1/3) * (g - r) = b - r := by
    rw [hH]
    field_simp
    ring
  refine ⟨?_, ?_, ?_⟩
  · rw [hue_to_rgb_eval _ _ _ (by linarith) (by linarith)]
    split_ifs with h1 h2 h3
    · exfalso; linarith
    · exfalso; linarith
    · exfalso; linarith
    · rfl
  · rw [hue_to_rgb_eval _ _ _ (by linarith) (by linarith)]
    split_ifs with h1 h2 h3
    · exfalso; linarith
    · rfl
    · have h12 : H = 1/2 := by linarith
      rw [h12]
      ring
    · exfalso; apply h3; linarith
  · rw [hue_to_rgb_eval _ _ _ (by linarith) (by linarith)]
    split_ifs with h1 h2 h3
    · linear_combination hHd
    · have hx : H - 1/3 = 1/6 := by linarith
      rw [show H = (H - 1/3) + 1/3 by ring, hx] at hHd
      linarith
    · exfalso; linarith
    · exfalso; linarith

theorem recon_gmax_bmin (r g b H : ℚ) (hH : H = 1/3 + (b - r) / (6 * (g - b)))
    (hb0 : 0 ≤ b) (hbr : b < r) (hrg : r < g) (hg1 : g ≤ 1) :
    hue_to_rgb b g (H + 1/3) = r ∧ hue_to_rgb b g H = g ∧
    hue_to_rgb b g (H - 1/3) = b := by
  have hd : 0 < g - b := by linarith
  have hx1 : -(1/6) < (b - r) / (6 * (g - b)) := by
    rw [lt_div_iff (by positivity)]
    linarith
  have hx0 : (b - r) / (6 * (g - b)) < 0 :=
    div_neg_of_neg_of_pos (by linarith) (by positivity)
  have hH6 : 1/6 < H := by rw [hH]; linarith
  have hH3 : H < 1/3 := by rw [hH]; linarith
  have hHd : 6 * (H - 1/3) * (g - b) = b - r := by
    rw [hH]
    field_simp
    ring
  refine ⟨?_, ?_, ?_⟩
  · rw [hue_to_rgb_eval _ _ _ (by linarith) (by linarith)]
    split_ifs with h1 h2 h3
    · exfalso; linarith
    · exfalso; linarith
    · linear_combination (-1 : ℚ) * hHd
    · exfalso; apply h3; linarith
  · rw [hue_to_rgb_eval _ _ _ (by linarith) (by linarith)]
    split_ifs with h1 h2 h3
    · exfalso; linarith
    · rfl
    · exfalso; linarith
    · exfalso; linarith
  · rw [hue_to_rgb_add_one _ _ _ (by linarith),
      show H - 1/3 + 1 = H + 2/3 by ring,
      hue_to_rgb_eval _ _ _ (by linarith) (by linarith)]
    split_ifs with h1 h2 h3
    · exfalso; linarith
    · exfalso; linarith
    · exfalso; linarith
    · rfl

theorem recon_bmax_gmin (r g b H : ℚ) (hH : H = 2/3 + (r - g) / (6 * (b - g)))
    (hg0 : 0 ≤ g) (hgr : g ≤ r) (hrb : r < b) (hb1 : b ≤ 1) :
    hue_to_rgb g b (H + 1/3) = r ∧ hue_to_rgb g b H = g ∧
    hue_to_rgb g b (H - 1/3) = b := by
  have hd : 0 < b - g := by linarith
  have hx0 : 0 ≤ (r - g) / (6 * (b - g)) :=
    div_nonneg (by linarith) (by linarith)
  have hx6 : (r - g) / (6 * (b - g)) < 1/6 := by
    rw [div_lt_iff (by positivity)]
    linarith
  have hH23 : 2/3 ≤ H := by rw [hH]; linarith
  have hH56 : H < 5/6 := by rw [hH]; linarith
  have hHd : 6 * (H - 2/3) * (b - g) = r - g := by
    rw [hH]
    field_simp
    ring
  refine ⟨?_, ?_, ?_⟩
  · rcases eq_or_lt_of_le hH23 with heq | hlt
    · rw [← heq] at hHd ⊢
      have hrg : r = g := by linarith
      rw [show (2:ℚ)/3 + 1/3 = 1 by norm_num,
        hue_to_rgb_eval _ _ _ (by norm_num) (by norm_num)]
      split_ifs with h1 h2 h3
      · exfalso; linarith
      · exfalso; linarith
      · exfalso; linarith
      · exact hrg.symm
    · rw [hue_to_rgb_sub_one _ _ _ (by linarith),
        show H + 1/3 - 1 = H - 2/3 by ring,
        hue_to_rgb_eval _ _ _ (by linarith) (by linarith)]
      split_ifs with h1 h2 h3
      · linear_combination hHd
      · exfalso; linarith
      · exfalso; linarith
      · exfalso; apply h1; linarith
  · rw [hue_to_rgb_eval _ _ _ (by linarith) (by linarith)]
    split_ifs with h1 h2 h3
    · exfalso; linarith
    · exfalso; linarith
    · exfalso; linarith
    · rfl
  · rw [hue_to_rgb_eval _ _ _ (by linarith) (by linarith)]
    split_ifs with h1 h2 h3
    · exfalso; linarith
    · rfl
    · exfalso; linarith
    · exfalso; linarith

theorem recon_bmax_rmin (r g b H : ℚ) (hH : H = 2/3 + (r - g) / (6 * (b - r)))
    (hr0 : 0 ≤ r) (hrg : r < g) (hgb : g < b) (hb1 : b ≤ 1) :
    hue_to_rgb r b (H + 1/3) = r ∧ hue_to_rgb r b H = g ∧
    hue_to_rgb r b (H - 1/3) = b := by
  have hd : 0 < b - r := by linarith
  have hx1 : -(1/6) < (r - g) / (6 * (b - r)) := by
    rw [lt_div_iff (by positivity)]
    linarith
  have hx0 : (r - g) / (6 * (b - r)) < 0 :=
    div_neg_of_neg_of_pos (by linarith) (by positivity)
  have hH12 : 1/2 < H := by rw [hH]; linarith
  have hH23 : H < 2/3 := by rw [hH]; linarith
  have hHd : 6 * (H - 2/3) * (b - r) = r - g := by
    rw [hH]
    field_simp
    ring
  refine ⟨?_, ?_, ?_⟩
  · rw [hue_to_rgb_eval _ _ _ (by linarith) (by linarith)]
    split_ifs with h1 h2 h3
    · exfalso; linarith
    · exfalso; linarith
    · exfalso; linarith
    · rfl
  · rw [hue_to_rgb_eval _ _ _ (by linarith) (by linarith)]
    split_ifs with h1 h2 h3
    · exfalso; linarith
    · exfalso; linarith
    · linear_combination (-1 : ℚ) * hHd
    · exfalso; apply h3; linarith
  · rw [hue_to_rgb_eval _ _ _ (by linarith) (by linarith)]
    split_ifs with h1 h2 h3
    · exfalso; linarith
    · rfl
    · exfalso; linarith
    · exfalso; linarith

/-! ### The HSL round trip -/

/-- The saturation computed by `to_hsl` when the minimum channel is `m` and
the maximum channel is `M`. -/
def sOf (m M : ℕ) : ℚ :=
  if ((m : ℚ)/255 + (M : ℚ)/255)/2 < 1/2 then
    ((M : ℚ)/255 - (m : ℚ)/255) / ((m : ℚ)/255 + (M : ℚ)/255)
  else ((M : ℚ)/255 - (m : ℚ)/255) / (2 - ((m : ℚ)/255 + (M : ℚ)/255))

/-- The lightness computed by `to_hsl`. -/
def lOf (m M : ℕ) : ℚ := ((m : ℚ)/255 + (M : ℚ)/255)/2

theorem lOf_mem (m M : ℕ) (hm : m ≤ M) (hM : M ≤ 255) :
    0 ≤ lOf m M ∧ lOf m M ≤ 1 := by
  have h0 : (0 : ℚ) ≤ m := Nat.cast_nonneg m
  have h1 : (m : ℚ) ≤ M := Nat.cast_le.mpr hm
  have h2 : (M : ℚ) ≤ 255 := by exact_mod_cast hM
  constructor
  · rw [lOf]
    positivity
  · rw [lOf]
    rw [div_le_one (by norm_num)]
    linarith

theorem sOf_mem (m M : ℕ) (h : m < M) (hM : M ≤ 255) :
    0 < sOf m M ∧ sOf m M ≤ 1 := by
  have h0 : (0 : ℚ) ≤ m := Nat.cast_nonneg m
  have h1 : (m : ℚ) + 1 ≤ M := by exact_mod_cast h
  have h2 : (M : ℚ) ≤ 255 := by exact_mod_cast hM
  have hsum : 0 < (m : ℚ)/255 + (M : ℚ)/255 := by linarith
  have hdiff : 0 < (M : ℚ)/255 - (m : ℚ)/255 := by linarith
  rw [sOf]
  split_ifs with hc
  · refine ⟨div_pos hdiff hsum, ?_⟩
    rw [div_le_one hsum]
    linarith
  · have h2sum : 0 < 2 - ((m : ℚ)/255 + (M : ℚ)/255) := by linarith
    refine ⟨div_pos hdiff h2sum, ?_⟩
    rw [div_le_one h2sum]
    linarith

theorem dbdg_sub (u v d : ℚ) (hd : d ≠ 0) :
    (u/6 + d/2)/d - (v/6 + d/2)/d = (u - v)/(6*d) := by
  field_simp
  ring

theorem dbdg_sub' (k u v d : ℚ) (hd : d ≠ 0) :
    k + (u/6 + d/2)/d - (v/6 + d/2)/d = k + (u - v)/(6*d) := by
  field_simp
  ring

theorem hsl_v2_low (a A : ℚ) (hden : a + A ≠ 0) :
    ((a + A)/2) * (1 + (A - a)/(a + A)) = A := by
  field_simp
  ring

theorem hsl_v2_high (a A : ℚ) (hden : 2 - (a + A) ≠ 0) :
    ((a + A)/2 + (A - a)/(2 - (a + A))) - (A - a)/(2 - (a + A)) * ((a + A)/2)
      = A := by
  field_simp
  ring

/-- In the chromatic case `v2` computed by `from_hsl` from `(sOf m M, lOf m M)`
is exactly the maximum channel and `v1 = 2l - v2` the minimum channel. -/
theorem v2v1_eq (m M : ℕ) (h : m < M) (hM : M ≤ 255) :
    (2 * lOf m M -
      (if lOf m M < 1/2 then lOf m M * (1 + sOf m M)
        else (lOf m M + sOf m M) - sOf m M * lOf m M)) = (m : ℚ)/255 ∧
    (if lOf m M < 1/2 then lOf m M * (1 + sOf m M)
      else (lOf m M + sOf m M) - sOf m M * lOf m M) = (M : ℚ)/255 := by
  have h0 : (0 : ℚ) ≤ m := Nat.cast_nonneg m
  have h1 : (m : ℚ) + 1 ≤ M := by exact_mod_cast h
  have h2 : (M : ℚ) ≤ 255 := by exact_mod_cast hM
  have hsum : 0 < (m : ℚ)/255 + (M : ℚ)/255 := by linarith
  have hsumne : (m : ℚ)/255 + (M : ℚ)/255 ≠ 0 := ne_of_gt hsum
  have hv2 : (if lOf m M < 1/2 then lOf m M * (1 + sOf m M)
      else (lOf m M + sOf m M) - sOf m M * lOf m M) = (M : ℚ)/255 := by
    simp only [lOf, sOf]
    split_ifs with hc
    · exact hsl_v2_low _ _ hsumne
    · refine hsl_v2_high _ _ ?_
      intro hx
      rw [sub_eq_zero] at hx
      linarith
  refine ⟨?_, hv2⟩
  rw [hv2, lOf]
  ring

/-- Evaluating `from_hsl` in the chromatic case, with the range checks
discharged. -/
theorem from_hsl_eval_chromatic (h s l : ℚ) (hs0 : 0 < s) (hs1 : s ≤ 1)
    (hl0 : 0 ≤ l) (hl1 : l ≤ 1) :
    from_hsl h s l = from_rgb_float
      (hue_to_rgb (2 * l - (if l < 1/2 then l * (1 + s) else (l + s) - s * l))
        (if l < 1/2 then l * (1 + s) else (l + s) - s * l) (h + 1/3))
      (hue_to_rgb (2 * l - (if l < 1/2 then l * (1 + s) else (l + s) - s * l))
        (if l < 1/2 then l * (1 + s) else (l + s) - s * l) h)
      (hue_to_rgb (2 * l - (if l < 1/2 then l * (1 + s) else (l + s) - s * l))
        (if l < 1/2 then l * (1 + s) else (l + s) - s * l) (h - 1/3)) := by
  rw [from_hsl, out_of_range_false (le_of_lt hs0) hs1, out_of_range_false hl0 hl1]
  simp only [Bool.or_self, Bool.false_eq_true, if_false]
  rw [if_neg (ne_of_gt hs0)]

theorem to_hsl_achromatic (c : Color) (h1 : c.red.val = c.green.val)
    (h2 : c.green.val = c.blue.val) :
    to_hsl c = (0, 0, (c.red.val : ℚ)/255) := by
  have hmin : min (min c.red.val c.green.val) c.blue.val = c.red.val := by omega
  have hmax : max (max c.red.val c.green.val) c.blue.val = c.red.val := by omega
  simp only [to_hsl, hmin, hmax]
  rw [if_pos (by rw [sub_self, eps]; positivity)]
  rw [show ((c.red.val : ℚ)/255 + (c.red.val : ℚ)/255)/2 = (c.red.val : ℚ)/255
    by ring]

theorem to_hsl_rmax_bmin (c : Color) (h1 : c.green.val ≤ c.red.val)
    (h2 : c.blue.val ≤ c.green.val) (hlt : c.blue.val < c.red.val) :
    to_hsl c =
      (((c.green.val : ℚ)/255 - (c.blue.val : ℚ)/255) /
          (6 * ((c.red.val : ℚ)/255 - (c.blue.val : ℚ)/255)),
        sOf c.blue.val c.red.val, lOf c.blue.val c.red.val) := by
  have hmin : min (min c.red.val c.green.val) c.blue.val = c.blue.val := by
    omega
  have hmax : max (max c.red.val c.green.val) c.blue.val = c.red.val := by
    omega
  have hcast : (c.blue.val : ℚ) + 1 ≤ (c.red.val : ℚ) := by exact_mod_cast hlt
  have hgcast : (c.blue.val : ℚ) ≤ (c.green.val : ℚ) := by exact_mod_cast h2
  have hrcast : (c.green.val : ℚ) ≤ (c.red.val : ℚ) := by exact_mod_cast h1
  have hchrom : ¬((c.red.val : ℚ)/255 - (c.blue.val : ℚ)/255 < eps) := by
    rw [eps]
    push_neg
    linarith
  have hdne : (c.red.val : ℚ)/255 - (c.blue.val : ℚ)/255 ≠ 0 := by
    intro hx
    linarith
  simp only [to_hsl, hmin, hmax]
  rw [if_neg hchrom]
  simp only [if_true]
  have hH : (((c.red.val : ℚ)/255 - (c.blue.val : ℚ)/255)/6 +
        ((c.red.val : ℚ)/255 - (c.blue.val : ℚ)/255)/2) /
        ((c.red.val : ℚ)/255 - (c.blue.val : ℚ)/255) -
      (((c.red.val : ℚ)/255 - (c.green.val : ℚ)/255)/6 +
        ((c.red.val : ℚ)/255 - (c.blue.val : ℚ)/255)/2) /
        ((c.red.val : ℚ)/255 - (c.blue.val : ℚ)/255) =
      ((c.green.val : ℚ)/255 - (c.blue.val : ℚ)/255) /
        (6 * ((c.red.val : ℚ)/255 - (c.blue.val : ℚ)/255)) := by
    rw [dbdg_sub _ _ _ hdne,
      show ((c.red.val : ℚ)/255 - (c.blue.val : ℚ)/255) -
        ((c.red.val : ℚ)/255 - (c.green.val : ℚ)/255) =
        (c.green.val : ℚ)/255 - (c.blue.val : ℚ)/255 from by ring]
  rw [hH]
  have hH0 : 0 ≤ ((c.green.val : ℚ)/255 - (c.blue.val : ℚ)/255) /
      (6 * ((c.red.val : ℚ)/255 - (c.blue.val : ℚ)/255)) :=
    div_nonneg (by linarith) (by linarith)
  have hH16 : ((c.green.val : ℚ)/255 - (c.blue.val : ℚ)/255) /
      (6 * ((c.red.val : ℚ)/255 - (c.blue.val : ℚ)/255)) ≤ 1/6 := by
    rw [div_le_iff (by linarith)]
    linarith
  rw [if_neg (not_lt.mpr hH0), if_neg (not_lt.mpr (le_trans hH16 (by norm_num)))]
  simp only [sOf, lOf]

theorem round_trip_rmax_bmin (c : Color) (h1 : c.green.val ≤ c.red.val)
    (h2 : c.blue.val ≤ c.green.val) (hlt : c.blue.val < c.red.val) :
    from_hsl (to_hsl c).1 (to_hsl c).2.1 (to_hsl c).2.2 = .ok c := by
  rw [to_hsl_rmax_bmin c h1 h2 hlt]
  obtain ⟨hs0, hs1⟩ := sOf_mem c.blue.val c.red.val hlt (by omega)
  obtain ⟨hl0, hl1⟩ := lOf_mem c.blue.val c.red.val (le_of_lt hlt) (by omega)
  rw [from_hsl_eval_chromatic _ _ _ hs0 hs1 hl0 hl1]
  obtain ⟨hv1, hv2⟩ := v2v1_eq c.blue.val c.red.val hlt (by omega)
  rw [hv1, hv2]
  have hb0 : (0 : ℚ) ≤ (c.blue.val : ℚ)/255 := by positivity
  have hbg : (c.blue.val : ℚ)/255 ≤ (c.green.val : ℚ)/255 := by
    have : (c.blue.val : ℚ) ≤ c.green.val := by exact_mod_cast h2
    linarith
  have hgr : (c.green.val : ℚ)/255 ≤ (c.red.val : ℚ)/255 := by
    have : (c.green.val : ℚ) ≤ c.red.val := by exact_mod_cast h1
    linarith
  have hr1 : (c.red.val : ℚ)/255 ≤ 1 := by
    have : (c.red.val : ℚ) ≤ 255 := by
      exact_mod_cast Nat.le_of_lt_succ c.red.isLt
    linarith
  have hblt : (c.blue.val : ℚ)/255 < (c.red.val : ℚ)/255 := by
    have : (c.blue.val : ℚ) + 1 ≤ c.red.val := by exact_mod_cast hlt
    linarith
  obtain ⟨e1, e2, e3⟩ := recon_rmax_bmin ((c.red.val : ℚ)/255)
    ((c.green.val : ℚ)/255) ((c.blue.val : ℚ)/255) _ rfl hb0 hbg hgr hr1 hblt
  rw [e1, e2, e3]
  exact from_rgb_float_exact c

theorem round_trip_achromatic (c : Color) (h1 : c.red.val = c.green.val)
    (h2 : c.green.val = c.blue.val) :
    from_hsl (to_hsl c).1 (to_hsl c).2.1 (to_hsl c).2.2 = .ok c := by
  rw [to_hsl_achromatic c h1 h2]
  show from_hsl 0 0 ((c.red.val : ℚ)/255) = .ok c
  have hl0 : (0 : ℚ) ≤ (c.red.val : ℚ)/255 := by positivity
  have hl1 : (c.red.val : ℚ)/255 ≤ 1 := by
    have : (c.red.val : ℚ) ≤ 255 := by
      exact_mod_cast Nat.le_of_lt_succ c.red.isLt
    linarith
  rw [from_hsl, out_of_range_false le_rfl (by norm_num : (0 : ℚ) ≤ 1),
    out_of_range_false hl0 hl1]
  simp only [Bool.or_self, Bool.false_eq_true, if_false, if_true]
  have hc : c = Color.mk c.red c.red c.red :=
    Color.ext' rfl (Fin.ext h1.symm) (Fin.ext (h1.trans h2).symm)
  rw [hc]
  exact from_rgb_float_exact (Color.mk c.red c.red c.red)

theorem to_hsl_rmax_gmin (c : Color) (hgb : c.green.val < c.blue.val)
    (hbr : c.blue.val ≤ c.red.val) :
    to_hsl c =
      (((c.green.val : ℚ)/255 - (c.blue.val : ℚ)/255) /
          (6 * ((c.red.val : ℚ)/255 - (c.green.val : ℚ)/255)) + 1,
        sOf c.green.val c.red.val, lOf c.green.val c.red.val) := by
  have hmin : min (min c.red.val c.green.val) c.blue.val = c.green.val := by
    omega
  have hmax : max (max c.red.val c.green.val) c.blue.val = c.red.val := by
    omega
  have hc1 : (c.green.val : ℚ) + 1 ≤ (c.blue.val : ℚ) := by exact_mod_cast hgb
  have hc2 : (c.blue.val : ℚ) ≤ (c.red.val : ℚ) := by exact_mod_cast hbr
  have hchrom : ¬((c.red.val : ℚ)/255 - (c.green.val : ℚ)/255 < eps) := by
    rw [eps]
    push_neg
    linarith
  have hdne : (c.red.val : ℚ)/255 - (c.green.val : ℚ)/255 ≠ 0 := by
    intro hx
    linarith
  simp only [to_hsl, hmin, hmax]
  rw [if_neg hchrom]
  simp only [if_true]
  have hH : (((c.red.val : ℚ)/255 - (c.blue.val : ℚ)/255)/6 +
        ((c.red.val : ℚ)/255 - (c.green.val : ℚ)/255)/2) /
        ((c.red.val : ℚ)/255 - (c.green.val : ℚ)/255) -
      (((c.red.val : ℚ)/255 - (c.green.val : ℚ)/255)/6 +
        ((c.red.val : ℚ)/255 - (c.green.val : ℚ)/255)/2) /
        ((c.red.val : ℚ)/255 - (c.green.val : ℚ)/255) =
      ((c.green.val : ℚ)/255 - (c.blue.val : ℚ)/255) /
        (6 * ((c.red.val : ℚ)/255 - (c.green.val : ℚ)/255)) := by
    rw [dbdg_sub _ _ _ hdne,
      show ((c.red.val : ℚ)/255 - (c.blue.val : ℚ)/255) -
        ((c.red.val : ℚ)/255 - (c.green.val : ℚ)/255) =
        (c.green.val : ℚ)/255 - (c.blue.val : ℚ)/255 from by ring]
  rw [hH]
  have hHneg : ((c.green.val : ℚ)/255 - (c.blue.val : ℚ)/255) /
      (6 * ((c.red.val : ℚ)/255 - (c.green.val : ℚ)/255)) < 0 :=
    div_neg_of_neg_of_pos (by linarith) (by linarith)
  have hle : ((c.green.val : ℚ)/255 - (c.blue.val : ℚ)/255) /
      (6 * ((c.red.val : ℚ)/255 - (c.green.val : ℚ)/255)) + 1 ≤ 1 := by
    linarith
  rw [if_pos hHneg, if_neg (not_lt.mpr hle)]
  simp only [sOf, lOf]

theorem round_trip_rmax_gmin (c : Color) (hgb : c.green.val < c.blue.val)
    (hbr : c.blue.val ≤ c.red.val) :
    from_hsl (to_hsl c).1 (to_hsl c).2.1 (to_hsl c).2.2 = .ok c := by
  have hlt : c.green.val < c.red.val := lt_of_lt_of_le hgb hbr
  rw [to_hsl_rmax_gmin c hgb hbr]
  obtain ⟨hs0, hs1⟩ := sOf_mem c.green.val c.red.val hlt (by omega)
  obtain ⟨hl0, hl1⟩ := lOf_mem c.green.val c.red.val (le_of_lt hlt) (by omega)
  rw [from_hsl_eval_chromatic _ _ _ hs0 hs1 hl0 hl1]
  obtain ⟨hv1, hv2⟩ := v2v1_eq c.green.val c.red.val hlt (by omega)
  rw [hv1, hv2]
  have hg0 : (0 : ℚ) ≤ (c.green.val : ℚ)/255 := by positivity
  have hgbq : (c.green.val : ℚ)/255 < (c.blue.val : ℚ)/255 := by
    have : (c.green.val : ℚ) + 1 ≤ c.blue.val := by exact_mod_cast hgb
    linarith
  have hbrq : (c.blue.val : ℚ)/255 ≤ (c.red.val : ℚ)/255 := by
    have : (c.blue.val : ℚ) ≤ c.red.val := by exact_mod_cast hbr
    linarith
  have hr1 : (c.red.val : ℚ)/255 ≤ 1 := by
    have : (c.red.val : ℚ) ≤ 255 := by
      exact_mod_cast Nat.le_of_lt_succ c.red.isLt
    linarith
  obtain ⟨e1, e2, e3⟩ := recon_rmax_gmin ((c.red.val : ℚ)/255)
    ((c.green.val : ℚ)/255) ((c.blue.val : ℚ)/255) _ rfl hg0 hgbq hbrq hr1
  rw [e1, e2, e3]
  exact from_rgb_float_exact c

theorem to_hsl_gmax_rmin (c : Color) (hrg : c.red.val < c.green.val)
    (hrb : c.red.val ≤ c.blue.val) (hbg : c.blue.val ≤ c.green.val) :
    to_hsl c =
      (1/3 + ((c.blue.val : ℚ)/255 - (c.red.val : ℚ)/255) /
          (6 * ((c.green.val : ℚ)/255 - (c.red.val : ℚ)/255)),
        sOf c.red.val c.green.val, lOf c.red.val c.green.val) := by
  have hmin : min (min c.red.val c.green.val) c.blue.val = c.red.val := by
    omega
  have hmax : max (max c.red.val c.green.val) c.blue.val = c.green.val := by
    omega
  have hc1 : (c.red.val : ℚ) + 1 ≤ (c.green.val : ℚ) := by exact_mod_cast hrg
  have hc2 : (c.red.val : ℚ) ≤ (c.blue.val : ℚ) := by exact_mod_cast hrb
  have hc3 : (c.blue.val : ℚ) ≤ (c.green.val : ℚ) := by exact_mod_cast hbg
  have hchrom : ¬((c.green.val : ℚ)/255 - (c.red.val : ℚ)/255 < eps) := by
    rw [eps]
    push_neg
    linarith
  have hdne : (c.green.val : ℚ)/255 - (c.red.val : ℚ)/255 ≠ 0 := by
    intro hx
    linarith
  have hrgne : ¬((c.red.val : ℚ)/255 = (c.green.val : ℚ)/255) := by
    intro hx
    linarith
  simp only [to_hsl, hmin, hmax]
  rw [if_neg hchrom, if_neg hrgne]
  simp only [if_true]
  have hH : 1/3 + (((c.green.val : ℚ)/255 - (c.red.val : ℚ)/255)/6 +
        ((c.green.val : ℚ)/255 - (c.red.val : ℚ)/255)/2) /
        ((c.green.val : ℚ)/255 - (c.red.val : ℚ)/255) -
      (((c.green.val : ℚ)/255 - (c.blue.val : ℚ)/255)/6 +
        ((c.green.val : ℚ)/255 - (c.red.val : ℚ)/255)/2) /
        ((c.green.val : ℚ)/255 - (c.red.val : ℚ)/255) =
      1/3 + ((c.blue.val : ℚ)/255 - (c.red.val : ℚ)/255) /
        (6 * ((c.green.val : ℚ)/255 - (c.red.val : ℚ)/255)) := by
    rw [dbdg_sub' _ _ _ _ hdne,
      show ((c.green.val : ℚ)/255 - (c.red.val : ℚ)/255) -
        ((c.green.val : ℚ)/255 - (c.blue.val : ℚ)/255) =
        (c.blue.val : ℚ)/255 - (c.red.val : ℚ)/255 from by ring]
  rw [hH]
  have hx0 : 0 ≤ ((c.blue.val : ℚ)/255 - (c.red.val : ℚ)/255) /
      (6 * ((c.green.val : ℚ)/255 - (c.red.val : ℚ)/255)) :=
    div_nonneg (by linarith) (by linarith)
  have hx6 : ((c.blue.val : ℚ)/255 - (c.red.val : ℚ)/255) /
      (6 * ((c.green.val : ℚ)/255 - (c.red.val : ℚ)/255)) ≤ 1/6 := by
    rw [div_le_iff (by linarith)]
    linarith
  rw [if_neg (not_lt.mpr (by linarith :
      (0 : ℚ) ≤ 1/3 + ((c.blue.val : ℚ)/255 - (c.red.val : ℚ)/255) /
        (6 * ((c.green.val : ℚ)/255 - (c.red.val : ℚ)/255)))),
    if_neg (not_lt.mpr (by linarith :
      1/3 + ((c.blue.val : ℚ)/255 - (c.red.val : ℚ)/255) /
        (6 * ((c.green.val : ℚ)/255 - (c.red.val : ℚ)/255)) ≤ 1))]
  simp only [sOf, lOf]

theorem round_trip_gmax_rmin (c : Color) (hrg : c.red.val < c.green.val)
    (hrb : c.red.val ≤ c.blue.val) (hbg : c.blue.val ≤ c.green.val) :
    from_hsl (to_hsl c).1 (to_hsl c).2.1 (to_hsl c).2.2 = .ok c := by
  rw [to_hsl_gmax_rmin c hrg hrb hbg]
  obtain ⟨hs0, hs1⟩ := sOf_mem c.red.val c.green.val hrg (by omega)
  obtain ⟨hl0, hl1⟩ := lOf_mem c.red.val c.green.val (le_of_lt hrg) (by omega)
  rw [from_hsl_eval_chromatic _ _ _ hs0 hs1 hl0 hl1]
  obtain ⟨hv1, hv2⟩ := v2v1_eq c.red.val c.green.val hrg (by omega)
  rw [hv1, hv2]
  have hr0 : (0 : ℚ) ≤ (c.red.val : ℚ)/255 := by positivity
  have hrbq : (c.red.val : ℚ)/255 ≤ (c.blue.val : ℚ)/255 := by
    have : (c.red.val : ℚ) ≤ c.blue.val := by exact_mod_cast hrb
    linarith
  have hbgq : (c.blue.val : ℚ)/255 ≤ (c.green.val : ℚ)/255 := by
    have : (c.blue.val : ℚ) ≤ c.green.val := by exact_mod_cast hbg
    linarith
  have hg1 : (c.green.val : ℚ)/255 ≤ 1 := by
    have : (c.green.val : ℚ) ≤ 255 := by
      exact_mod_cast Nat.le_of_lt_succ c.green.isLt
    linarith
  have hrgq : (c.red.val : ℚ)/255 < (c.green.val : ℚ)/255 := by
    have : (c.red.val : ℚ) + 1 ≤ c.green.val := by exact_mod_cast hrg
    linarith
  obtain ⟨e1, e2, e3⟩ := recon_gmax_rmin ((c.red.val : ℚ)/255)
    ((c.green.val : ℚ)/255) ((c.blue.val : ℚ)/255) _ rfl hr0 hrbq hbgq hg1 hrgq
  rw [e1, e2, e3]
  exact from_rgb_float_exact c

theorem to_hsl_gmax_bmin (c : Color) (hbr : c.blue.val < c.red.val)
    (hrg : c.red.val < c.green.val) :
    to_hsl c =
      (1/3 + ((c.blue.val : ℚ)/255 - (c.red.val : ℚ)/255) /
          (6 * ((c.green.val : ℚ)/255 - (c.blue.val : ℚ)/255)),
        sOf c.blue.val c.green.val, lOf c.blue.val c.green.val) := by
  have hmin : min (min c.red.val c.green.val) c.blue.val = c.blue.val := by
    omega
  have hmax : max (max c.red.val c.green.val) c.blue.val = c.green.val := by
    omega
  have hc1 : (c.blue.val : ℚ) + 1 ≤ (c.red.val : ℚ) := by exact_mod_cast hbr
  have hc2 : (c.red.val : ℚ) + 1 ≤ (c.green.val : ℚ) := by exact_mod_cast hrg
  have hchrom : ¬((c.green.val : ℚ)/255 - (c.blue.val : ℚ)/255 < eps) := by
    rw [eps]
    push_neg
    linarith
  have hdne : (c.green.val : ℚ)/255 - (c.blue.val : ℚ)/255 ≠ 0 := by
    intro hx
    linarith
  have hrgne : ¬((c.red.val : ℚ)/255 = (c.green.val : ℚ)/255) := by
    intro hx
    linarith
  simp only [to_hsl, hmin, hmax]
  rw [if_neg hchrom, if_neg hrgne]
  simp only [if_true]
  have hH : 1/3 + (((c.green.val : ℚ)/255 - (c.red.val : ℚ)/255)/6 +
        ((c.green.val : ℚ)/255 - (c.blue.val : ℚ)/255)/2) /
        ((c.green.val : ℚ)/255 - (c.blue.val : ℚ)/255) -
      (((c.green.val : ℚ)/255 - (c.blue.val : ℚ)/255)/6 +
        ((c.green.val : ℚ)/255 - (c.blue.val : ℚ)/255)/2) /
        ((c.green.val : ℚ)/255 - (c.blue.val : ℚ)/255) =
      1/3 + ((c.blue.val : ℚ)/255 - (c.red.val : ℚ)/255) /
        (6 * ((c.green.val : ℚ)/255 - (c.blue.val : ℚ)/255)) := by
    rw [dbdg_sub' _ _ _ _ hdne,
      show ((c.green.val : ℚ)/255 - (c.red.val : ℚ)/255) -
        ((c.green.val : ℚ)/255 - (c.blue.val : ℚ)/255) =
        (c.blue.val : ℚ)/255 - (c.red.val : ℚ)/255 from by ring]
  rw [hH]
  have hx1 : -(1/6) < ((c.blue.val : ℚ)/255 - (c.red.val : ℚ)/255) /
      (6 * ((c.green.val : ℚ)/255 - (c.blue.val : ℚ)/255)) := by
    rw [lt_div_iff (by linarith)]
    linarith
  have hx0 : ((c.blue.val : ℚ)/255 - (c.red.val : ℚ)/255) /
      (6 * ((c.green.val : ℚ)/255 - (c.blue.val : ℚ)/255)) < 0 :=
    div_neg_of_neg_of_pos (by linarith) (by linarith)
  rw [if_neg (not_lt.mpr (by linarith :
      (0 : ℚ) ≤ 1/3 + ((c.blue.val : ℚ)/255 - (c.red.val : ℚ)/255) /
        (6 * ((c.green.val : ℚ)/255 - (c.blue.val : ℚ)/255)))),
    if_neg (not_lt.mpr (by linarith :
      1/3 + ((c.blue.val : ℚ)/255 - (c.red.val : ℚ)/255) /
        (6 * ((c.green.val : ℚ)/255 - (c.blue.val : ℚ)/255)) ≤ 1))]
  simp only [sOf, lOf]

theorem round_trip_gmax_bmin (c : Color) (hbr : c.blue.val < c.red.val)
    (hrg : c.red.val < c.green.val) :
    from_hsl (to_hsl c).1 (to_hsl c).2.1 (to_hsl c).2.2 = .ok c := by
  have hlt : c.blue.val < c.green.val := lt_trans hbr hrg
  rw [to_hsl_gmax_bmin c hbr hrg]
  obtain ⟨hs0, hs1⟩ := sOf_mem c.blue.val c.green.val hlt (by omega)
  obtain ⟨hl0, hl1⟩ := lOf_mem c.blue.val c.green.val (le_of_lt hlt) (by omega)
  rw [from_hsl_eval_chromatic _ _ _ hs0 hs1 hl0 hl1]
  obtain ⟨hv1, hv2⟩ := v2v1_eq c.blue.val c.green.val hlt (by omega)
  rw [hv1, hv2]
  have hb0 : (0 : ℚ) ≤ (c.blue.val : ℚ)/255 := by positivity
  have hbrq : (c.blue.val : ℚ)/255 < (c.red.val : ℚ)/255 := by
    have : (c.blue.val : ℚ) + 1 ≤ c.red.val := by exact_mod_cast hbr
    linarith
  have hrgq : (c.red.val : ℚ)/255 < (c.green.val : ℚ)/255 := by
    have : (c.red.val : ℚ) + 1 ≤ c.green.val := by exact_mod_cast hrg
    linarith
  have hg1 : (c.green.val : ℚ)/255 ≤ 1 := by
    have : (c.green.val : ℚ) ≤ 255 := by
      exact_mod_cast Nat.le_of_lt_succ c.green.isLt
    linarith
  obtain ⟨e1, e2, e3⟩ := recon_gmax_bmin ((c.red.val : ℚ)/255)
    ((c.green.val : ℚ)/255) ((c.blue.val : ℚ)/255) _ rfl hb0 hbrq hrgq hg1
  rw [e1, e2, e3]
  exact from_rgb_float_exact c

theorem to_hsl_bmax_gmin (c : Color) (hgr : c.green.val ≤ c.red.val)
    (hrb : c.red.val < c.blue.val) :
    to_hsl c =
      (2/3 + ((c.red.val : ℚ)/255 - (c.green.val : ℚ)/255) /
          (6 * ((c.blue.val : ℚ)/255 - (c.green.val : ℚ)/255)),
        sOf c.green.val c.blue.val, lOf c.green.val c.blue.val) := by
  have hmin : min (min c.red.val c.green.val) c.blue.val = c.green.val := by
    omega
  have hmax : max (max c.red.val c.green.val) c.blue.val = c.blue.val := by
    omega
  have hc1 : (c.green.val : ℚ) ≤ (c.red.val : ℚ) := by exact_mod_cast hgr
  have hc2 : (c.red.val : ℚ) + 1 ≤ (c.blue.val : ℚ) := by exact_mod_cast hrb
  have hchrom : ¬((c.blue.val : ℚ)/255 - (c.green.val : ℚ)/255 < eps) := by
    rw [eps]
    push_neg
    linarith
  have hdne : (c.blue.val : ℚ)/255 - (c.green.val : ℚ)/255 ≠ 0 := by
    intro hx
    linarith
  have hrbne : ¬((c.red.val : ℚ)/255 = (c.blue.val : ℚ)/255) := by
    intro hx
    linarith
  have hgbne : ¬((c.green.val : ℚ)/255 = (c.blue.val : ℚ)/255) := by
    intro hx
    linarith
  simp only [to_hsl, hmin, hmax]
  rw [if_neg hchrom, if_neg hrbne, if_neg hgbne]
  have hH : 2/3 + (((c.blue.val : ℚ)/255 - (c.green.val : ℚ)/255)/6 +
        ((c.blue.val : ℚ)/255 - (c.green.val : ℚ)/255)/2) /
        ((c.blue.val : ℚ)/255 - (c.green.val : ℚ)/255) -
      (((c.blue.val : ℚ)/255 - (c.red.val : ℚ)/255)/6 +
        ((c.blue.val : ℚ)/255 - (c.green.val : ℚ)/255)/2) /
        ((c.blue.val : ℚ)/255 - (c.green.val : ℚ)/255) =
      2/3 + ((c.red.val : ℚ)/255 - (c.green.val : ℚ)/255) /
        (6 * ((c.blue.val : ℚ)/255 - (c.green.val : ℚ)/255)) := by
    rw [dbdg_sub' _ _ _ _ hdne,
      show ((c.blue.val : ℚ)/255 - (c.green.val : ℚ)/255) -
        ((c.blue.val : ℚ)/255 - (c.red.val : ℚ)/255) =
        (c.red.val : ℚ)/255 - (c.green.val : ℚ)/255 from by ring]
  rw [hH]
  have hx0 : 0 ≤ ((c.red.val : ℚ)/255 - (c.green.val : ℚ)/255) /
      (6 * ((c.blue.val : ℚ)/255 - (c.green.val : ℚ)/255)) :=
    div_nonneg (by linarith) (by linarith)
  have hx6 : ((c.red.val : ℚ)/255 - (c.green.val : ℚ)/255) /
      (6 * ((c.blue.val : ℚ)/255 - (c.green.val : ℚ)/255)) < 1/6 := by
    rw [div_lt_iff (by linarith)]
    linarith
  rw [if_neg (not_lt.mpr (by linarith :
      (0 : ℚ) ≤ 2/3 + ((c.red.val : ℚ)/255 - (c.green.val : ℚ)/255) /
        (6 * ((c.blue.val : ℚ)/255 - (c.green.val : ℚ)/255)))),
    if_neg (not_lt.mpr (by linarith :
      2/3 + ((c.red.val : ℚ)/255 - (c.green.val : ℚ)/255) /
        (6 * ((c.blue.val : ℚ)/255 - (c.green.val : ℚ)/255)) ≤ 1))]
  simp only [sOf, lOf]

theorem round_trip_bmax_gmin (c : Color) (hgr : c.green.val ≤ c.red.val)
    (hrb : c.red.val < c.blue.val) :
    from_hsl (to_hsl c).1 (to_hsl c).2.1 (to_hsl c).2.2 = .ok c := by
  have hlt : c.green.val < c.blue.val := lt_of_le_of_lt hgr hrb
  rw [to_hsl_bmax_gmin c hgr hrb]
  obtain ⟨hs0, hs1⟩ := sOf_mem c.green.val c.blue.val hlt (by omega)
  obtain ⟨hl0, hl1⟩ := lOf_mem c.green.val c.blue.val (le_of_lt hlt) (by omega)
  rw [from_hsl_eval_chromatic _ _ _ hs0 hs1 hl0 hl1]
  obtain ⟨hv1, hv2⟩ := v2v1_eq c.green.val c.blue.val hlt (by omega)
  rw [hv1, hv2]
  have hg0 : (0 : ℚ) ≤ (c.green.val : ℚ)/255 := by positivity
  have hgrq : (c.green.val : ℚ)/255 ≤ (c.red.val : ℚ)/255 := by
    have : (c.green.val : ℚ) ≤ c.red.val := by exact_mod_cast hgr
    linarith
  have hrbq : (c.red.val : ℚ)/255 < (c.blue.val : ℚ)/255 := by
    have : (c.red.val : ℚ) + 1 ≤ c.blue.val := by exact_mod_cast hrb
    linarith
  have hb1 : (c.blue.val : ℚ)/255 ≤ 1 := by
    have : (c.blue.val : ℚ) ≤ 255 := by
      exact_mod_cast Nat.le_of_lt_succ c.blue.isLt
    linarith
  obtain ⟨e1, e2, e3⟩ := recon_bmax_gmin ((c.red.val : ℚ)/255)
    ((c.green.val : ℚ)/255) ((c.blue.val : ℚ)/255) _ rfl hg0 hgrq hrbq hb1
  rw [e1, e2, e3]
  exact from_rgb_float_exact c

theorem to_hsl_bmax_rmin (c : Color) (hrg : c.red.val < c.green.val)
    (hgb : c.green.val < c.blue.val) :
    to_hsl c =
      (2/3 + ((c.red.val : ℚ)/255 - (c.green.val : ℚ)/255) /
          (6 * ((c.blue.val : ℚ)/255 - (c.red.val : ℚ)/255)),
        sOf c.red.val c.blue.val, lOf c.red.val c.blue.val) := by
  have hmin : min (min c.red.val c.green.val) c.blue.val = c.red.val := by
    omega
  have hmax : max (max c.red.val c.green.val) c.blue.val = c.blue.val := by
    omega
  have hc1 : (c.red.val : ℚ) + 1 ≤ (c.green.val : ℚ) := by exact_mod_cast hrg
  have hc2 : (c.green.val : ℚ) + 1 ≤ (c.blue.val : ℚ) := by exact_mod_cast hgb
  have hchrom : ¬((c.blue.val : ℚ)/255 - (c.red.val : ℚ)/255 < eps) := by
    rw [eps]
    push_neg
    linarith
  have hdne : (c.blue.val : ℚ)/255 - (c.red.val : ℚ)/255 ≠ 0 := by
    intro hx
    linarith
  have hrbne : ¬((c.red.val : ℚ)/255 = (c.blue.val : ℚ)/255) := by
    intro hx
    linarith
  have hgbne : ¬((c.green.val : ℚ)/255 = (c.blue.val : ℚ)/255) := by
    intro hx
    linarith
  simp only [to_hsl, hmin, hmax]
  rw [if_neg hchrom, if_neg hrbne, if_neg hgbne]
  have hH : 2/3 + (((c.blue.val : ℚ)/255 - (c.green.val : ℚ)/255)/6 +
        ((c.blue.val : ℚ)/255 - (c.red.val : ℚ)/255)/2) /
        ((c.blue.val : ℚ)/255 - (c.red.val : ℚ)/255) -
      (((c.blue.val : ℚ)/255 - (c.red.val : ℚ)/255)/6 +
        ((c.blue.val : ℚ)/255 - (c.red.val : ℚ)/255)/2) /
        ((c.blue.val : ℚ)/255 - (c.red.val : ℚ)/255) =
      2/3 + ((c.red.val : ℚ)/255 - (c.green.val : ℚ)/255) /
        (6 * ((c.blue.val : ℚ)/255 - (c.red.val : ℚ)/255)) := by
    rw [dbdg_sub' _ _ _ _ hdne,
      show ((c.blue.val : ℚ)/255 - (c.green.val : ℚ)/255) -
        ((c.blue.val : ℚ)/255 - (c.red.val : ℚ)/255) =
        (c.red.val : ℚ)/255 - (c.green.val : ℚ)/255 from by ring]
  rw [hH]
  have hx1 : -(1/6) < ((c.red.val : ℚ)/255 - (c.green.val : ℚ)/255) /
      (6 * ((c.blue.val : ℚ)/255 - (c.red.val : ℚ)/255)) := by
    rw [lt_div_iff (by linarith)]
    linarith
  have hx0 : ((c.red.val : ℚ)/255 - (c.green.val : ℚ)/255) /
      (6 * ((c.blue.val : ℚ)/255 - (c.red.val : ℚ)/255)) < 0 :=
    div_neg_of_neg_of_pos (by linarith) (by linarith)
  rw [if_neg (not_lt.mpr (by linarith :
      (0 : ℚ) ≤ 2/3 + ((c.red.val : ℚ)/255 - (c.green.val : ℚ)/255) /
        (6 * ((c.blue.val : ℚ)/255 - (c.red.val : ℚ)/255)))),
    if_neg (not_lt.mpr (by linarith :
      2/3 + ((c.red.val : ℚ)/255 - (c.green.val : ℚ)/255) /
        (6 * ((c.blue.val : ℚ)/255 - (c.red.val : ℚ)/255)) ≤ 1))]
  simp only [sOf, lOf]

theorem round_trip_bmax_rmin (c : Color) (hrg : c.red.val < c.green.val)
    (hgb : c.green.val < c.blue.val) :
    from_hsl (to_hsl c).1 (to_hsl c).2.1 (to_hsl c).2.2 = .ok c := by
  have hlt : c.red.val < c.blue.val := lt_trans hrg hgb
  rw [to_hsl_bmax_rmin c hrg hgb]
  obtain ⟨hs0, hs1⟩ := sOf_mem c.red.val c.blue.val hlt (by omega)
  obtain ⟨hl0, hl1⟩ := lOf_mem c.red.val c.blue.val (le_of_lt hlt) (by omega)
  rw [from_hsl_eval_chromatic _ _ _ hs0 hs1 hl0 hl1]
  obtain ⟨hv1, hv2⟩ := v2v1_eq c.red.val c.blue.val hlt (by omega)
  rw [hv1, hv2]
  have hr0 : (0 : ℚ) ≤ (c.red.val : ℚ)/255 := by positivity
  have hrgq : (c.red.val : ℚ)/255 < (c.green.val : ℚ)/255 := by
    have : (c.red.val : ℚ) + 1 ≤ c.green.val := by exact_mod_cast hrg
    linarith
  have hgbq : (c.green.val : ℚ)/255 < (c.blue.val : ℚ)/255 := by
    have : (c.green.val : ℚ) + 1 ≤ c.blue.val := by exact_mod_cast hgb
    linarith
  have hb1 : (c.blue.val : ℚ)/255 ≤ 1 := by
    have : (c.blue.val : ℚ) ≤ 255 := by
      exact_mod_cast Nat.le_of_lt_succ c.blue.isLt
    linarith
  obtain ⟨e1, e2, e3⟩ := recon_bmax_rmin ((c.red.val : ℚ)/255)
    ((c.green.val : ℚ)/255) ((c.blue.val : ℚ)/255) _ rfl hr0 hrgq hgbq hb1
  rw [e1, e2, e3]
  exact from_rgb_float_exact c

/-- The HSL round trip: `from_hsl (to_hsl c) = c` for every 8-bit color. -/
theorem from_hsl_to_hsl (c : Color) :
    from_hsl (to_hsl c).1 (to_hsl c).2.1 (to_hsl c).2.2 = .ok c := by
  by_cases c1 : c.green.val ≤ c.red.val ∧ c.blue.val ≤ c.red.val
  · by_cases c2 : c.blue.val ≤ c.green.val
    · by_cases c3 : c.blue.val < c.red.val
      · exact round_trip_rmax_bmin c c1.1 c2 c3
      · exact round_trip_achromatic c (by omega) (by omega)
    · exact round_trip_rmax_gmin c (by omega) (by omega)
  · by_cases c4 : c.red.val ≤ c.green.val ∧ c.blue.val ≤ c.green.val
    · by_cases c5 : c.red.val ≤ c.blue.val
      · exact round_trip_gmax_rmin c (by omega) c5 c4.2
      · exact round_trip_gmax_bmin c (by omega) (by omega)
    · by_cases c6 : c.green.val ≤ c.red.val
      · exact round_trip_bmax_gmin c c6 (by omega)
      · exact round_trip_bmax_rmin c (by omega) (by omega)

/-- The saturation and lightness produced by `to_hsl` always lie in `[0, 1]`. -/
theorem to_hsl_sl_mem (c : Color) :
    0 ≤ (to_hsl c).2.1 ∧ (to_hsl c).2.1 ≤ 1 ∧
    0 ≤ (to_hsl c).2.2 ∧ (to_hsl c).2.2 ≤ 1 := by
  have hach : ∀ h1 : c.red.val = c.green.val, ∀ h2 : c.green.val = c.blue.val,
      0 ≤ (to_hsl c).2.1 ∧ (to_hsl c).2.1 ≤ 1 ∧
      0 ≤ (to_hsl c).2.2 ∧ (to_hsl c).2.2 ≤ 1 := by
    intro h1 h2
    rw [to_hsl_achromatic c h1 h2]
    have : (c.red.val : ℚ) ≤ 255 := by
      exact_mod_cast Nat.le_of_lt_succ c.red.isLt
    refine ⟨le_rfl, by norm_num, by positivity, by linarith⟩
  have hcase : ∀ (m M : ℕ) (H : ℚ), m < M → M ≤ 255 →
      to_hsl c = (H, sOf m M, lOf m M) →
      0 ≤ (to_hsl c).2.1 ∧ (to_hsl c).2.1 ≤ 1 ∧
      0 ≤ (to_hsl c).2.2 ∧ (to_hsl c).2.2 ≤ 1 := by
    intro m M H hlt hM heq
    rw [heq]
    obtain ⟨hs0, hs1⟩ := sOf_mem m M hlt hM
    obtain ⟨hl0, hl1⟩ := lOf_mem m M (le_of_lt hlt) hM
    exact ⟨le_of_lt hs0, hs1, hl0, hl1⟩
  by_cases c1 : c.green.val ≤ c.red.val ∧ c.blue.val ≤ c.red.val
  · by_cases c2 : c.blue.val ≤ c.green.val
    · by_cases c3 : c.blue.val < c.red.val
      · exact hcase c.blue.val c.red.val _ c3 (by omega)
          (to_hsl_rmax_bmin c c1.1 c2 c3)
      · exact hach (by omega) (by omega)
    · exact hcase c.green.val c.red.val _ (by omega) (by omega)
        (to_hsl_rmax_gmin c (by omega) (by omega))
  · by_cases c4 : c.red.val ≤ c.green.val ∧ c.blue.val ≤ c.green.val
    · by_cases c5 : c.red.val ≤ c.blue.val
      · exact hcase c.red.val c.green.val _ (by omega) (by omega)
          (to_hsl_gmax_rmin c (by omega) c5 c4.2)
      · exact hcase c.blue.val c.green.val _ (by omega) (by omega)
          (to_hsl_gmax_bmin c (by omega) (by omega))
    · by_cases c6 : c.green.val ≤ c.red.val
      · exact hcase c.green.val c.blue.val _ (by omega) (by omega)
          (to_hsl_bmax_gmin c c6 (by omega))
      · exact hcase c.red.val c.blue.val _ (by omega) (by omega)
          (to_hsl_bmax_rmin c (by omega) (by omega))

/-- `from_hsl` succeeds (no panic) whenever saturation and lightness are in
`[0, 1]`; the hue is arbitrary. -/
theorem from_hsl_ok (h s l : ℚ) (hs0 : 0 ≤ s) (hs1 : s ≤ 1) (hl0 : 0 ≤ l)
    (hl1 : l ≤ 1) : ∃ c, from_hsl h s l = .ok c := by
  have hp1 : 0 ≤ l * s := mul_nonneg hl0 hs0
  have hp2 : 0 ≤ l * (1 - s) := mul_nonneg hl0 (by linarith)
  have hp3 : 0 ≤ (1 - s) * (1 - l) := mul_nonneg (by linarith) (by linarith)
  have hp4 : 0 ≤ s * (1 - l) := mul_nonneg hs0 (by linarith)
  rcases eq_or_lt_of_le hs0 with heq | hpos
  · rw [from_hsl, out_of_range_false hs0 hs1, out_of_range_false hl0 hl1]
    simp only [Bool.or_self, Bool.false_eq_true, if_false]
    rw [if_pos heq.symm]
    exact from_rgb_float_ok hl0 hl1 hl0 hl1 hl0 hl1
  · rw [from_hsl_eval_chromatic h s l hpos hs1 hl0 hl1]
    have hv2b : 0 ≤ (if l < 1/2 then l * (1 + s) else (l + s) - s * l) ∧
        (if l < 1/2 then l * (1 + s) else (l + s) - s * l) ≤ 1 := by
      split_ifs with hc
      · exact ⟨by nlinarith, by nlinarith⟩
      · exact ⟨by nlinarith, by nlinarith⟩
    have hv1b : 0 ≤ 2 * l - (if l < 1/2 then l * (1 + s) else (l + s) - s * l) ∧
        2 * l - (if l < 1/2 then l * (1 + s) else (l + s) - s * l) ≤ 1 := by
      split_ifs with hc
      · exact ⟨by nlinarith, by nlinarith⟩
      · exact ⟨by nlinarith, by nlinarith⟩
    obtain ⟨e10, e11⟩ := hue_to_rgb_bound _ _ (h + 1/3) hv1b.1 hv1b.2 hv2b.1 hv2b.2
    obtain ⟨e20, e21⟩ := hue_to_rgb_bound _ _ h hv1b.1 hv1b.2 hv2b.1 hv2b.2
    obtain ⟨e30, e31⟩ := hue_to_rgb_bound _ _ (h - 1/3) hv1b.1 hv1b.2 hv2b.1 hv2b.2
    exact from_rgb_float_ok e10 e11 e20 e21 e30 e31

/-- `from_hsv` succeeds (no panic) whenever saturation and value are in
`[0, 1]`; the hue is arbitrary. -/
theorem from_hsv_ok (h s v : ℚ) (hs0 : 0 ≤ s) (hs1 : s ≤ 1) (hv0 : 0 ≤ v)
    (hv1 : v ≤ 1) : ∃ c, from_hsv h s v = .ok c := by
  rw [from_hsv, out_of_range_false hs0 hs1, out_of_range_false hv0 hv1]
  simp only [Bool.or_self, Bool.false_eq_true, if_false]
  by_cases heq : s = 0
  · rw [if_pos heq]
    exact from_rgb_float_ok hv0 hv1 hv0 hv1 hv0 hv1
  · rw [if_neg heq]
    set vh := if h * 6 = 6 then (0 : ℚ) else h * 6 with hvh
    have hf0 : 0 ≤ vh - (⌊vh⌋ : ℚ) := sub_nonneg.mpr (Int.floor_le vh)
    have hf1 : vh - (⌊vh⌋ : ℚ) ≤ 1 := by
      have := Int.lt_floor_add_one vh
      linarith
    have hsf0 : 0 ≤ s * (vh - (⌊vh⌋ : ℚ)) := mul_nonneg hs0 hf0
    have hsf1 : s * (vh - (⌊vh⌋ : ℚ)) ≤ 1 := by
      nlinarith [mul_nonneg hs0 (by linarith : (0 : ℚ) ≤ 1 - (vh - (⌊vh⌋ : ℚ)))]
    have hsg0 : 0 ≤ s * (1 - (vh - (⌊vh⌋ : ℚ))) :=
      mul_nonneg hs0 (by linarith)
    have hsg1 : s * (1 - (vh - (⌊vh⌋ : ℚ))) ≤ 1 := by
      nlinarith [mul_nonneg hs0 hf0]
    have hb1 : 0 ≤ v * (1 - s) ∧ v * (1 - s) ≤ 1 :=
      ⟨mul_nonneg hv0 (by linarith), by nlinarith [mul_nonneg hv0 hs0]⟩
    have hb2 : 0 ≤ v * (1 - s * (vh - (⌊vh⌋ : ℚ))) ∧
        v * (1 - s * (vh - (⌊vh⌋ : ℚ))) ≤ 1 :=
      ⟨mul_nonneg hv0 (by linarith), by nlinarith [mul_nonneg hv0 hsf0]⟩
    have hb3 : 0 ≤ v * (1 - s * (1 - (vh - (⌊vh⌋ : ℚ)))) ∧
        v * (1 - s * (1 - (vh - (⌊vh⌋ : ℚ)))) ≤ 1 :=
      ⟨mul_nonneg hv0 (by linarith), by nlinarith [mul_nonneg hv0 hsg0]⟩
    split_ifs with h0 h1 h2 h3 h4
    · exact from_rgb_float_ok hv0 hv1 hb3.1 hb3.2 hb1.1 hb1.2
    · exact from_rgb_float_ok hb2.1 hb2.2 hv0 hv1 hb1.1 hb1.2
    · exact from_rgb_float_ok hb1.1 hb1.2 hv0 hv1 hb3.1 hb3.2
    · exact from_rgb_float_ok hb1.1 hb1.2 hb2.1 hb2.2 hv0 hv1
    · exact from_rgb_float_ok hb3.1 hb3.2 hb1.1 hb1.2 hv0 hv1
    · exact from_rgb_float_ok hv0 hv1 hb1.1 hb1.2 hb2.1 hb2.2

/-! ### `ColorRange` iteration -/

theorem ColorRange.new_eq (a b : Color) (steps : ℕ) (hs : 1 ≤ steps) :
    ColorRange.new a b steps = some
      ⟨steps, 0,
        (if steps = 1 then ((0 : ℚ), (0 : ℚ), (0 : ℚ)) else
          (((to_hsl b).1 - (to_hsl a).1) / ((steps - 1 : ℕ) : ℚ),
           ((to_hsl b).2.1 - (to_hsl a).2.1) / ((steps - 1 : ℕ) : ℚ),
           ((to_hsl b).2.2 - (to_hsl a).2.2) / ((steps - 1 : ℕ) : ℚ))),
        to_hsl a⟩ := by
  rw [ColorRange.new, if_neg (by omega : ¬steps = 0)]
  dsimp only
  by_cases h1 : steps = 1
  · subst h1
    norm_num
  · rw [if_pos (show steps - 1 > 0 by omega), if_neg h1]

theorem ColorRange.next_yield (T k : ℕ) (st s0 : ℚ × ℚ × ℚ) (hk : ¬k = T)
    (c : Color)
    (hok : from_hsl (s0.1 + st.1 * (k : ℚ)) (s0.2.1 + st.2.1 * (k : ℚ))
      (s0.2.2 + st.2.2 * (k : ℚ)) = .ok c) :
    ColorRange.next ⟨T, k, st, s0⟩ = some (some (c, ⟨T, k + 1, st, s0⟩)) := by
  simp only [ColorRange.next, if_neg hk, hok]

theorem ColorRange.next_done (T : ℕ) (st s0 : ℚ × ℚ × ℚ) :
    ColorRange.next ⟨T, T, st, s0⟩ = some none := by
  simp [ColorRange.next]

/-- Once `current_step` has reached `total_steps`, every further pull yields
`None`, forever. -/
theorem takeColors_exhausted (T : ℕ) (st s0 : ℚ × ℚ × ℚ) :
    ∀ n, takeColors ⟨T, T, st, s0⟩ n = some (List.replicate n none) := by
  intro n
  induction n with
  | zero => simp [takeColors]
  | succ n ih =>
    rw [takeColors, ColorRange.next_done, ih]
    rfl

/-- Full characterization of pulling `n` values starting at step `k`: entry
`j` is the interpolated color at index `k + j` while `k + j < total_steps`,
and `None` afterwards. -/
theorem takeColors_spec (T : ℕ) (st s0 : ℚ × ℚ × ℚ)
    (hok : ∀ i : ℕ, i < T → ∃ c, from_hsl (s0.1 + st.1 * (i : ℚ))
      (s0.2.1 + st.2.1 * (i : ℚ)) (s0.2.2 + st.2.2 * (i : ℚ)) = .ok c) :
    ∀ (n k : ℕ), k ≤ T → ∃ l, takeColors ⟨T, k, st, s0⟩ n = some l ∧
      l.length = n ∧ ∀ j, j < n → l.get? j =
        some (if k + j < T then
          (from_hsl (s0.1 + st.1 * ((k + j : ℕ) : ℚ))
            (s0.2.1 + st.2.1 * ((k + j : ℕ) : ℚ))
            (s0.2.2 + st.2.2 * ((k + j : ℕ) : ℚ))).toOption
        else none) := by
  intro n
  induction n with
  | zero =>
    intro k hk
    exact ⟨[], by simp [takeColors], rfl, by omega⟩
  | succ n ih =>
    intro k hk
    rcases eq_or_lt_of_le hk with heq | hlt
    · subst heq
      obtain ⟨l, hl, hlen, hget⟩ := ih k le_rfl
      refine ⟨none :: l, ?_, by simp [hlen], ?_⟩
      · rw [takeColors, ColorRange.next_done, hl]
        rfl
      · intro j hj
        match j with
        | 0 =>
          rw [List.get?_cons_zero, if_neg (by omega)]
        | j + 1 =>
          rw [List.get?_cons_succ, hget j (by omega),
            if_neg (by omega), if_neg (by omega)]
    · obtain ⟨c, hc⟩ := hok k hlt
      obtain ⟨l, hl, hlen, hget⟩ := ih (k + 1) (by omega)
      refine ⟨some c :: l, ?_, by simp [hlen], ?_⟩
      · rw [takeColors, ColorRange.next_yield T k st s0 (by omega) c hc]
        show (takeColors ⟨T, k + 1, st, s0⟩ n).map (fun l => some c :: l) =
          some (some c :: l)
        rw [hl]
        rfl
      · intro j hj
        match j with
        | 0 =>
          rw [List.get?_cons_zero, if_pos (by omega)]
          rw [show k + 0 = k from rfl, hc]
          rfl
        | j + 1 =>
          rw [List.get?_cons_succ, hget j (by omega)]
          rw [show k + 1 + j = k + (j + 1) from by omega]

/-- Interpolated saturation/lightness values stay in `[0, 1]`. -/
theorem interp_mem (x y : ℚ) (T i : ℕ) (hx0 : 0 ≤ x) (hx1 : x ≤ 1)
    (hy0 : 0 ≤ y) (hy1 : y ≤ 1) (hi : i < T) :
    0 ≤ x + (if T = 1 then 0 else (y - x)/((T - 1 : ℕ) : ℚ)) * (i : ℚ) ∧
    x + (if T = 1 then 0 else (y - x)/((T - 1 : ℕ) : ℚ)) * (i : ℚ) ≤ 1 := by
  by_cases h1 : T = 1
  · rw [if_pos h1]
    have hi0 : (0 : ℚ) ≤ (i : ℚ) := by positivity
    constructor
    · nlinarith
    · nlinarith
  · rw [if_neg h1]
    have hN1 : (1 : ℚ) ≤ ((T - 1 : ℕ) : ℚ) := by
      exact_mod_cast (by omega : 1 ≤ T - 1)
    have hN : (0 : ℚ) < ((T - 1 : ℕ) : ℚ) := by linarith
    have hNne : ((T - 1 : ℕ) : ℚ) ≠ 0 := ne_of_gt hN
    have hiN : (i : ℚ) ≤ ((T - 1 : ℕ) : ℚ) := by
      exact_mod_cast (by omega : i ≤ T - 1)
    have hi0 : (0 : ℚ) ≤ (i : ℚ) := Nat.cast_nonneg i
    have key : x + (y - x)/((T - 1 : ℕ) : ℚ) * (i : ℚ) =
        (x * (((T - 1 : ℕ) : ℚ) - (i : ℚ)) + y * (i : ℚ)) /
          ((T - 1 : ℕ) : ℚ) := by
      field_simp
      ring
    rw [key]
    constructor
    · apply div_nonneg _ (le_of_lt hN)
      nlinarith [mul_nonneg hx0 (by linarith : (0 : ℚ) ≤ ((T - 1 : ℕ) : ℚ) - i),
        mul_nonneg hy0 hi0]
    · rw [div_le_one hN]
      nlinarith [mul_nonneg (by linarith : (0 : ℚ) ≤ 1 - x)
          (by linarith : (0 : ℚ) ≤ ((T - 1 : ℕ) : ℚ) - i),
        mul_nonneg (by linarith : (0 : ℚ) ≤ 1 - y) hi0]

/-! ### C3 -/

/-- C3: for every color `c`, the iterator `c.range_to(c, 1)` yields exactly
one value, that value equals `c` under RGB equality, and every subsequent
pull yields `None`. -/
theorem range_to_self_single (c : Color) :
    ∃ cr, ColorRange.new c c 1 = some cr ∧
      ∀ n : ℕ, takeColors cr (n + 1) = some (some c :: List.replicate n none) := by
  refine ⟨_, ColorRange.new_eq c c 1 le_rfl, ?_⟩
  intro n
  rw [if_pos rfl]
  have hok : from_hsl ((to_hsl c).1 + (0 : ℚ) * ((0 : ℕ) : ℚ))
      ((to_hsl c).2.1 + (0 : ℚ) * ((0 : ℕ) : ℚ))
      ((to_hsl c).2.2 + (0 : ℚ) * ((0 : ℕ) : ℚ)) = .ok c := by
    rw [show (to_hsl c).1 + (0 : ℚ) * ((0 : ℕ) : ℚ) = (to_hsl c).1 by ring,
      show (to_hsl c).2.1 + (0 : ℚ) * ((0 : ℕ) : ℚ) = (to_hsl c).2.1 by ring,
      show (to_hsl c).2.2 + (0 : ℚ) * ((0 : ℕ) : ℚ) = (to_hsl c).2.2 by ring]
    exact from_hsl_to_hsl c
  rw [takeColors,
    ColorRange.next_yield 1 0 ((0 : ℚ), (0 : ℚ), (0 : ℚ)) (to_hsl c)
      (by omega) c hok]
  show (takeColors ⟨1, 1, ((0 : ℚ), (0 : ℚ), (0 : ℚ)), to_hsl c⟩ n).map
    (fun l => some c :: l) = some (some c :: List.replicate n none)
  rw [takeColors_exhausted]
  rfl

/-! ### C4 -/

/-- C4: for every start and end color and `steps ≥ 1`, the `range_to`
iterator yields exactly `steps` colors and then `None` permanently: pulling
`n` times gives a list whose entry `j` is the color
`from_hsl (start + j * delta)` for `j < steps`, with
`delta = (end_hsl - start_hsl) / (steps - 1)` (`(0,0,0)` when `steps = 1`),
and `None` for `j ≥ steps`. -/
theorem range_to_interpolates (a b : Color) (steps n : ℕ) (hs : 1 ≤ steps) :
    ∃ cr, ColorRange.new a b steps = some cr ∧
      ∃ l, takeColors cr n = some l ∧ l.length = n ∧
        ∀ j, j < n → l.get? j = some (if j < steps then
          (from_hsl
            ((to_hsl a).1 + (if steps = 1 then 0 else
              ((to_hsl b).1 - (to_hsl a).1)/((steps - 1 : ℕ) : ℚ)) * (j : ℚ))
            ((to_hsl a).2.1 + (if steps = 1 then 0 else
              ((to_hsl b).2.1 - (to_hsl a).2.1)/((steps - 1 : ℕ) : ℚ)) * (j : ℚ))
            ((to_hsl a).2.2 + (if steps = 1 then 0 else
              ((to_hsl b).2.2 - (to_hsl a).2.2)/((steps - 1 : ℕ) : ℚ)) * (j : ℚ))).toOption
        else none) := by
  have hst1 : (if steps = 1 then ((0 : ℚ), (0 : ℚ), (0 : ℚ)) else
      (((to_hsl b).1 - (to_hsl a).1) / ((steps - 1 : ℕ) : ℚ),
       ((to_hsl b).2.1 - (to_hsl a).2.1) / ((steps - 1 : ℕ) : ℚ),
       ((to_hsl b).2.2 - (to_hsl a).2.2) / ((steps - 1 : ℕ) : ℚ))).1 =
      (if steps = 1 then 0 else
        ((to_hsl b).1 - (to_hsl a).1)/((steps - 1 : ℕ) : ℚ)) := by
    split_ifs <;> rfl
  have hst2 : (if steps = 1 then ((0 : ℚ), (0 : ℚ), (0 : ℚ)) else
      (((to_hsl b).1 - (to_hsl a).1) / ((steps - 1 : ℕ) : ℚ),
       ((to_hsl b).2.1 - (to_hsl a).2.1) / ((steps - 1 : ℕ) : ℚ),
       ((to_hsl b).2.2 - (to_hsl a).2.2) / ((steps - 1 : ℕ) : ℚ))).2.1 =
      (if steps = 1 then 0 else
        ((to_hsl b).2.1 - (to_hsl a).2.1)/((steps - 1 : ℕ) : ℚ)) := by
    split_ifs <;> rfl
  have hst3 : (if steps = 1 then ((0 : ℚ), (0 : ℚ), (0 : ℚ)) else
      (((to_hsl b).1 - (to_hsl a).1) / ((steps - 1 : ℕ) : ℚ),
       ((to_hsl b).2.1 - (to_hsl a).2.1) / ((steps - 1 : ℕ) : ℚ),
       ((to_hsl b).2.2 - (to_hsl a).2.2) / ((steps - 1 : ℕ) : ℚ))).2.2 =
      (if steps = 1 then 0 else
        ((to_hsl b).2.2 - (to_hsl a).2.2)/((steps - 1 : ℕ) : ℚ)) := by
    split_ifs <;> rfl
  refine ⟨_, ColorRange.new_eq a b steps hs, ?_⟩
  obtain ⟨hsa0, hsa1, hla0, hla1⟩ := to_hsl_sl_mem a
  obtain ⟨hsb0, hsb1, hlb0, hlb1⟩ := to_hsl_sl_mem b
  have hok : ∀ i : ℕ, i < steps →
      ∃ c', from_hsl
        ((to_hsl a).1 + (if steps = 1 then ((0 : ℚ), (0 : ℚ), (0 : ℚ)) else
          (((to_hsl b).1 - (to_hsl a).1) / ((steps - 1 : ℕ) : ℚ),
           ((to_hsl b).2.1 - (to_hsl a).2.1) / ((steps - 1 : ℕ) : ℚ),
           ((to_hsl b).2.2 - (to_hsl a).2.2) / ((steps - 1 : ℕ) : ℚ))).1 * (i : ℚ))
        ((to_hsl a).2.1 + (if steps = 1 then ((0 : ℚ), (0 : ℚ), (0 : ℚ)) else
          (((to_hsl b).1 - (to_hsl a).1) / ((steps - 1 : ℕ) : ℚ),
           ((to_hsl b).2.1 - (to_hsl a).2.1) / ((steps - 1 : ℕ) : ℚ),
           ((to_hsl b).2.2 - (to_hsl a).2.2) / ((steps - 1 : ℕ) : ℚ))).2.1 * (i : ℚ))
        ((to_hsl a).2.2 + (if steps = 1 then ((0 : ℚ), (0 : ℚ), (0 : ℚ)) else
          (((to_hsl b).1 - (to_hsl a).1) / ((steps - 1 : ℕ) : ℚ),
           ((to_hsl b).2.1 - (to_hsl a).2.1) / ((steps - 1 : ℕ) : ℚ),
           ((to_hsl b).2.2 - (to_hsl a).2.2) / ((steps - 1 : ℕ) : ℚ))).2.2 * (i : ℚ)) =
        .ok c' := by
    intro i hi
    rw [hst1, hst2, hst3]
    obtain ⟨hx0, hx1⟩ :=
      interp_mem (to_hsl a).2.1 (to_hsl b).2.1 steps i hsa0 hsa1 hsb0 hsb1 hi
    obtain ⟨hy0, hy1⟩ :=
      interp_mem (to_hsl a).2.2 (to_hsl b).2.2 steps i hla0 hla1 hlb0 hlb1 hi
    exact from_hsl_ok _ _ _ hx0 hx1 hy0 hy1
  obtain ⟨l, hl, hlen, hget⟩ :=
    takeColors_spec steps _ (to_hsl a) hok n 0 (Nat.zero_le _)
  refine ⟨l, hl, hlen, ?_⟩
  intro j hj
  rw [hget j hj, Nat.zero_add, hst1, hst2, hst3]

/-- Witness for C4 at `a = black`, `b = white`, `steps = 2`, `n = 3`. -/
theorem range_to_interpolates_witness :
    ∃ cr, ColorRange.new (Color.new 0 0 0) (Color.new 255 255 255) 2 = some cr ∧
      ∃ l, takeColors cr 3 = some l ∧ l.length = 3 ∧
        ∀ j, j < 3 → l.get? j = some (if j < 2 then
          (from_hsl
            ((to_hsl (Color.new 0 0 0)).1 + (if 2 = 1 then 0 else
              ((to_hsl (Color.new 255 255 255)).1 - (to_hsl (Color.new 0 0 0)).1)/((2 - 1 : ℕ) : ℚ)) * (j : ℚ))
            ((to_hsl (Color.new 0 0 0)).2.1 + (if 2 = 1 then 0 else
              ((to_hsl (Color.new 255 255 255)).2.1 - (to_hsl (Color.new 0 0 0)).2.1)/((2 - 1 : ℕ) : ℚ)) * (j : ℚ))
            ((to_hsl (Color.new 0 0 0)).2.2 + (if 2 = 1 then 0 else
              ((to_hsl (Color.new 255 255 255)).2.2 - (to_hsl (Color.new 0 0 0)).2.2)/((2 - 1 : ℕ) : ℚ)) * (j : ℚ))).toOption
        else none) :=
  range_to_interpolates (Color.new 0 0 0) (Color.new 255 255 255) 2 3
    (by omega)

/-! ### C5 -/

/-- C5: one production of the `ColorWheel`, for any phase in `[0,1)` and any
shift the generator can draw (any rational in `[0.1, 0.2)`): the new phase is
the old phase plus the shift, wrapped into `[0,1)` by a single subtraction
when the sum reaches 1; the emitted value is `from_hsv(phase, 1.0, 0.8)`
(which succeeds); and consecutive hues differ by at least `0.1` modulo
wraparound. -/
theorem color_wheel_step (w : ColorWheel) (shift : ℚ) (h0 : 0 ≤ w.phase)
    (h1 : w.phase < 1) (hs0 : 1/10 ≤ shift) (hs1 : shift < 1/5) :
    ((w.next shift).1.phase =
      if w.phase + shift ≥ 1 then w.phase + shift - 1 else w.phase + shift) ∧
    (0 ≤ (w.next shift).1.phase ∧ (w.next shift).1.phase < 1) ∧
    ((w.next shift).2 = from_hsv ((w.next shift).1.phase) 1 (4/5)) ∧
    (∃ c, (w.next shift).2 = .ok c) ∧
    (1/10 ≤ min |(w.next shift).1.phase - w.phase|
      (1 - |(w.next shift).1.phase - w.phase|)) := by
  have heq : (w.next shift).1.phase =
      if w.phase + shift ≥ 1 then w.phase + shift - 1 else w.phase + shift :=
    rfl
  refine ⟨heq, ?_, rfl, ?_, ?_⟩
  · rw [heq]
    split_ifs with hc
    · constructor <;> linarith
    · push_neg at hc
      constructor <;> linarith
  · exact from_hsv_ok _ 1 (4/5) (by norm_num) (by norm_num) (by norm_num)
      (by norm_num)
  · rw [heq]
    split_ifs with hc
    · rw [show w.phase + shift - 1 - w.phase = shift - 1 by ring,
        abs_of_neg (by linarith)]
      apply le_min <;> linarith
    · rw [show w.phase + shift - w.phase = shift by ring,
        abs_of_nonneg (by linarith)]
      apply le_min <;> linarith

/-- Witness for C5 at phase `0`, shift `1/10`. -/
theorem color_wheel_step_witness :
    ((ColorWheel.mk 0).next (1/10)).1.phase =
      (if (0 : ℚ) + 1/10 ≥ 1 then (0 : ℚ) + 1/10 - 1 else (0 : ℚ) + 1/10) ∧
    (0 ≤ ((ColorWheel.mk 0).next (1/10)).1.phase ∧
      ((ColorWheel.mk 0).next (1/10)).1.phase < 1) ∧
    (((ColorWheel.mk 0).next (1/10)).2 =
      from_hsv (((ColorWheel.mk 0).next (1/10)).1.phase) 1 (4/5)) ∧
    (∃ c, ((ColorWheel.mk 0).next (1/10)).2 = .ok c) ∧
    (1/10 ≤ min |((ColorWheel.mk 0).next (1/10)).1.phase - (ColorWheel.mk 0).phase|
      (1 - |((ColorWheel.mk 0).next (1/10)).1.phase - (ColorWheel.mk 0).phase|)) :=
  color_wheel_step (ColorWheel.mk 0) (1/10) (by norm_num) (by norm_num)
    (by norm_num) (by norm_num)

/-! ### C6 -/

theorem out_of_range_iff (x : ℚ) :
    out_of_range x = true ↔ (x < 0 - eps ∨ 1 + eps < x) := by
  simp only [out_of_range, Bool.or_eq_true, decide_eq_true_eq, gt_iff_lt]
  constructor
  · rintro (h | h)
    · left; linarith
    · right; linarith
  · rintro (h | h)
    · left; linarith
    · right; linarith

theorem u8cast_val_eq (q : ℚ) (hq0 : 0 < q) (hq1 : q < 256) :
    ((u8cast q).val : ℤ) = ⌊q⌋ := by
  have hf0 : 0 ≤ ⌊q⌋ := Int.floor_nonneg.mpr (le_of_lt hq0)
  have hf1 : ⌊q⌋ < 256 := Int.floor_lt.mpr (by exact_mod_cast hq1)
  show ((min ⌊q⌋.toNat 255 : ℕ) : ℤ) = ⌊q⌋
  omega

/-- C6: `from_rgb_float(r,g,b)` fails exactly when some component lies
outside `[0 - ε, 1 + ε]` with `ε = f32::EPSILON`; the panic message names the
violating component(s); and on success each 8-bit channel is the truncation
of `component * 255.0 + 0.5`. -/
theorem from_rgb_float_spec (r g b : ℚ) :
    ((∃ m, from_rgb_float r g b = .error m) ↔
      ((r < 0 - eps ∨ 1 + eps < r) ∨ (g < 0 - eps ∨ 1 + eps < g) ∨
        (b < 0 - eps ∨ 1 + eps < b))) ∧
    (∀ m, from_rgb_float r g b = .error m →
      m = "Color parameter outside of expected range:"
        ++ (if r < 0 - eps ∨ 1 + eps < r then " Red" else "")
        ++ (if g < 0 - eps ∨ 1 + eps < g then " Green" else "")
        ++ (if b < 0 - eps ∨ 1 + eps < b then " Blue" else "")) ∧
    (¬((r < 0 - eps ∨ 1 + eps < r) ∨ (g < 0 - eps ∨ 1 + eps < g) ∨
        (b < 0 - eps ∨ 1 + eps < b)) →
      ∃ c, from_rgb_float r g b = .ok c ∧
        (c.red.val : ℤ) = ⌊r * 255 + 1/2⌋ ∧
        (c.green.val : ℤ) = ⌊g * 255 + 1/2⌋ ∧
        (c.blue.val : ℤ) = ⌊b * 255 + 1/2⌋) := by
  have heps : eps = 1 / 2 ^ 23 := rfl
  have hconv : ∀ (x : ℚ) (s : String),
      (if out_of_range x then s else "") =
      (if x < 0 - eps ∨ 1 + eps < x then s else "") := by
    intro x s
    by_cases hx : out_of_range x
    · rw [if_pos hx, if_pos ((out_of_range_iff x).mp hx)]
    · rw [if_neg hx, if_neg (fun hc => hx ((out_of_range_iff x).mpr hc))]
  have hiff : (out_of_range r || out_of_range g || out_of_range b) = true ↔
      ((r < 0 - eps ∨ 1 + eps < r) ∨ (g < 0 - eps ∨ 1 + eps < g) ∨
        (b < 0 - eps ∨ 1 + eps < b)) := by
    simp only [Bool.or_eq_true, out_of_range_iff, or_assoc]
  by_cases hcond : (out_of_range r || out_of_range g || out_of_range b) = true
  · refine ⟨⟨fun _ => hiff.mp hcond, fun _ => ?_⟩, ?_, ?_⟩
    · exact ⟨_, by rw [from_rgb_float, if_pos hcond]⟩
    · intro m hm
      rw [from_rgb_float, if_pos hcond] at hm
      have := (Except.error.injEq _ _).mp hm.symm
      rw [this, hconv r, hconv g, hconv b]
    · intro hn
      exact absurd (hiff.mp hcond) hn
  · have hr : ¬(r < 0 - eps ∨ 1 + eps < r) :=
      fun hc => hcond (hiff.mpr (Or.inl hc))
    have hg : ¬(g < 0 - eps ∨ 1 + eps < g) :=
      fun hc => hcond (hiff.mpr (Or.inr (Or.inl hc)))
    have hb : ¬(b < 0 - eps ∨ 1 + eps < b) :=
      fun hc => hcond (hiff.mpr (Or.inr (Or.inr hc)))
    refine ⟨⟨fun ⟨m, hm⟩ => ?_, fun hv => absurd (hiff.mpr hv) hcond⟩, ?_, ?_⟩
    · rw [from_rgb_float, if_neg hcond] at hm
      simp at hm
    · intro m hm
      rw [from_rgb_float, if_neg hcond] at hm
      simp at hm
    · intro hn
      push_neg at hr hg hb
      refine ⟨_, by rw [from_rgb_float, if_neg hcond], ?_, ?_, ?_⟩
      · exact u8cast_val_eq _ (by rw [heps] at hr; linarith [hr.1, hr.2])
          (by rw [heps] at hr; linarith [hr.1, hr.2])
      · exact u8cast_val_eq _ (by rw [heps] at hg; linarith [hg.1, hg.2])
          (by rw [heps] at hg; linarith [hg.1, hg.2])
      · exact u8cast_val_eq _ (by rw [heps] at hb; linarith [hb.1, hb.2])
          (by rw [heps] at hb; linarith [hb.1, hb.2])

/-- Witness for C6 at `r = g = b = 1/2` (all components in range). -/
theorem from_rgb_float_spec_witness :
    ∃ c, from_rgb_float (1/2) (1/2) (1/2) = .ok c ∧
      (c.red.val : ℤ) = ⌊(1/2 : ℚ) * 255 + 1/2⌋ ∧
      (c.green.val : ℤ) = ⌊(1/2 : ℚ) * 255 + 1/2⌋ ∧
      (c.blue.val : ℤ) = ⌊(1/2 : ℚ) * 255 + 1/2⌋ :=
  (from_rgb_float_spec (1/2) (1/2) (1/2)).2.2 (by norm_num [eps])

/-! ### C1 -/

/-- C1: `to_hex` packs the channels of a `Color(r,g,b)` as
`r | (g<<8) | (b<<16)` (R in the low byte), the reverse byte order of
`from_hex`'s extraction, which reads R from bits 16–23, G from bits 8–15 and
B from bits 0–7 and ignores bits above 23; in particular
`new(100,100,100).to_hex() == 0x646464`. -/
theorem to_hex_packs_r_low (c : Color) (n : ℕ) :
    (to_hex c = c.red.val ||| (c.green.val <<< 8) ||| (c.blue.val <<< 16)) ∧
    (to_hex c = c.red.val + 2 ^ 8 * c.green.val + 2 ^ 16 * c.blue.val) ∧
    ((from_hex n).red.val = n / 2 ^ 16 % 2 ^ 8 ∧
      (from_hex n).green.val = n / 2 ^ 8 % 2 ^ 8 ∧
      (from_hex n).blue.val = n % 2 ^ 8 ∧
      from_hex n = from_hex (n % 2 ^ 24)) ∧
    to_hex (Color.new 100 100 100) = 0x646464 := by
  obtain ⟨h1, h2, h3⟩ := from_hex_channels n
  obtain ⟨g1, g2, g3⟩ := from_hex_channels (n % 2 ^ 24)
  refine ⟨rfl, to_hex_eq_add c, ⟨h1, h2, h3, ?_⟩, by decide⟩
  refine Color.ext' (Fin.ext ?_) (Fin.ext ?_) (Fin.ext ?_) <;> omega

/-! ### C10 -/

/-- C10: the hex round-trip swaps red and blue:
`from_hex (to_hex c) = Color(b, g, r)`, and it is the identity exactly when
`r = b`. -/
theorem from_hex_to_hex_swaps (c : Color) :
    from_hex (to_hex c) = ⟨c.blue, c.green, c.red⟩ ∧
    (from_hex (to_hex c) = c ↔ c.red = c.blue) := by
  have hr := c.red.isLt
  have hg := c.green.isLt
  have hb := c.blue.isLt
  obtain ⟨h1, h2, h3⟩ := from_hex_channels (to_hex c)
  have hx := to_hex_eq_add c
  have hswap : from_hex (to_hex c) = ⟨c.blue, c.green, c.red⟩ := by
    refine Color.ext' (Fin.ext ?_) (Fin.ext ?_) (Fin.ext ?_) <;>
      simp only [h1, h2, h3] <;> omega
  refine ⟨hswap, ?_⟩
  rw [hswap]
  constructor
  · intro h
    have := congrArg Color.red h
    have h' := congrArg Color.blue h
    simp at this h'
    rw [this]
  · intro h
    cases c
    simp_all

/-! ### C7 -/

/-- C7: `range_to(start, end, steps)` (i.e. `ColorRange::new`) panics if and
only if `steps == 0`; the failure happens during construction, before any
value can be yielded, and for `steps ≥ 1` construction succeeds. -/
theorem range_to_fails_iff_zero_steps (a b : Color) (steps : ℕ) :
    ColorRange.new a b steps = none ↔ steps = 0 := by
  rw [ColorRange.new]
  split
  · simp_all
  · simp_all

/-! ### C8 -/

/-- C8: addition and subtraction are channel-wise saturating and never fail:
each channel of `a + b` is `min (aᵢ + bᵢ) 255` and each channel of `a - b` is
`max (aᵢ - bᵢ) 0` (over ℤ), and all result channels stay in `[0, 255]`. -/
theorem add_sub_saturating (a b : Color) :
    ((a.add b).red.val = min (a.red.val + b.red.val) 255 ∧
      (a.add b).green.val = min (a.green.val + b.green.val) 255 ∧
      (a.add b).blue.val = min (a.blue.val + b.blue.val) 255) ∧
    (((a.sub b).red.val : ℤ) = max ((a.red.val : ℤ) - (b.red.val : ℤ)) 0 ∧
      ((a.sub b).green.val : ℤ) = max ((a.green.val : ℤ) - (b.green.val : ℤ)) 0 ∧
      ((a.sub b).blue.val : ℤ) = max ((a.blue.val : ℤ) - (b.blue.val : ℤ)) 0) ∧
    ((a.add b).red.val ≤ 255 ∧ (a.add b).green.val ≤ 255 ∧
      (a.add b).blue.val ≤ 255 ∧ (a.sub b).red.val ≤ 255 ∧
      (a.sub b).green.val ≤ 255 ∧ (a.sub b).blue.val ≤ 255) := by
  have h1 := a.red.isLt
  have h2 := a.green.isLt
  have h3 := a.blue.isLt
  have h4 := b.red.isLt
  have h5 := b.green.isLt
  have h6 := b.blue.isLt
  refine ⟨⟨rfl, rfl, rfl⟩, ⟨?_, ?_, ?_⟩, ⟨?_, ?_, ?_, ?_, ?_, ?_⟩⟩ <;>
    simp [Color.add, Color.sub, u8sadd, u8ssub] <;> omega

/-! ### C9 -/

/-- C9: multiplication is channel-wise `⌊aᵢ * bᵢ / 255⌋`, the product being
formed in a wider integer type (it never exceeds `255 * 255 = 65025 < 2^16`,
hence never overflows before the division); in particular
`from_hex(0xFF9999) * from_hex(0xCCCCCC) == new(204, 122, 122)`. -/
theorem mul_channelwise (a b : Color) :
    ((a.mul b).red.val = a.red.val * b.red.val / 255 ∧
      (a.mul b).green.val = a.green.val * b.green.val / 255 ∧
      (a.mul b).blue.val = a.blue.val * b.blue.val / 255) ∧
    (a.red.val * b.red.val ≤ 65025 ∧ a.green.val * b.green.val ≤ 65025 ∧
      a.blue.val * b.blue.val ≤ 65025) ∧
    (from_hex 0xFF9999).mul (from_hex 0xCCCCCC) = Color.new 204 122 122 := by
  have br : a.red.val * b.red.val ≤ 65025 := by
    calc a.red.val * b.red.val ≤ 255 * 255 :=
      Nat.mul_le_mul (Nat.le_of_lt_succ a.red.isLt) (Nat.le_of_lt_succ b.red.isLt)
    _ = 65025 := by norm_num
  have bg : a.green.val * b.green.val ≤ 65025 := by
    calc a.green.val * b.green.val ≤ 255 * 255 :=
      Nat.mul_le_mul (Nat.le_of_lt_succ a.green.isLt) (Nat.le_of_lt_succ b.green.isLt)
    _ = 65025 := by norm_num
  have bb : a.blue.val * b.blue.val ≤ 65025 := by
    calc a.blue.val * b.blue.val ≤ 255 * 255 :=
      Nat.mul_le_mul (Nat.le_of_lt_succ a.blue.isLt) (Nat.le_of_lt_succ b.blue.isLt)
    _ = 65025 := by norm_num
  refine ⟨⟨?_, ?_, ?_⟩, ⟨br, bg, bb⟩, by decide⟩ <;>
    simp [Color.mul, u8mul] <;> omega

/-! ### C2 -/

/-- C2: the claim (and the doc comment of `from_hsv` itself) says hue is
interpreted modulo 1, so `from_hsv(h+1, s, v)` should equal
`from_hsv(h, s, v)`.  The code contradicts this: only `v_h == 6.0` is
special-cased, every other hue outside `[0, 1)` lands in the final sector
branch.  At `h = 1/2` the result is cyan, at `h = 1/2 + 1` it is magenta. -/
theorem from_hsv_hue_not_modulo_one :
    from_hsv (1/2) 1 1 = .ok (Color.new 0 255 255) ∧
    from_hsv (1/2 + 1) 1 1 = .ok (Color.new 255 0 255) ∧
    from_hsv (1/2) 1 1 ≠ from_hsv (1/2 + 1) 1 1 := by
  have h1 : from_hsv (1/2) 1 1 = .ok (Color.new 0 255 255) := by
    rw [from_hsv]
    norm_num [out_of_range, eps, u8cast, from_rgb_float]
    decide
  have h2 : from_hsv (1/2 + 1) 1 1 = .ok (Color.new 255 0 255) := by
    rw [from_hsv]
    norm_num [out_of_range, eps, u8cast, from_rgb_float]
    decide
  refine ⟨h1, h2, ?_⟩
  rw [h1, h2]
  simp only [ne_eq, Except.ok.injEq]
  decide

end Octarine
